import Mathlib

/-!
Shallow embedding of the retrieval/ranking core of the simile-search
repository, together with theorems settling the specification claims.

Modelling conventions:
- JS strings are lists of characters; `toLowerCase` is modelled per character.
- JS numbers are modelled by `ℚ` (exact arithmetic); a division by zero that
  would produce NaN in JS is modelled by an `Option` result where it matters.
- JS `Map` / `Set` (which preserve insertion order) are modelled by
  association lists / duplicate-free lists in insertion order.
-/

namespace SimileSearch

abbrev Str := List Char

/-- Per-character model of JS `String.prototype.toLowerCase`. -/
def lower (s : Str) : Str := s.map Char.toLower

/-- Model of JS `String.prototype.includes`: substring test. -/
def includesSub (t w : Str) : Bool := decide (w <:+: t)

/-- Model of JS `str.split(/\s+/)`: the pieces between maximal whitespace
runs, including the empty pieces JS produces at the string's boundaries. A
whitespace character opens a new (initially empty) piece unless the next
character extends the same whitespace run; a non-whitespace character is
prepended to the current first piece. -/
def splitWS : Str → List Str
  | [] => [[]]
  | c :: cs =>
    let r := splitWS cs
    if c.isWhitespace then
      match cs with
      | [] => [] :: r
      | d :: _ => if d.isWhitespace then r else [] :: r
    else
      match r with
      | [] => [[c]]
      | w :: ws => (c :: w) :: ws

/-- Source `keywordScore`, first step: the rich similarity module computes
`query.toLowerCase().split(/\s+/).filter(Boolean)`. -/
def wordsOf (s : Str) : List Str := (splitWS s).filter (fun w => !w.isEmpty)

/-- Source `keywordScore` (similarity module of the rich engine variant):
fraction of query words occurring as substrings of the lowercased text;
`0` when the query has no non-empty words. -/
def keywordScore (query text : Str) : ℚ :=
  let queryWords := wordsOf (lower query)
  if queryWords.length = 0 then 0
  else
    let textLower := lower text
    let hits := (queryWords.filter (fun w => includesSub textLower w)).length
    (hits : ℚ) / (queryWords.length : ℚ)

/-- Modelled from the spec: the external `fast-levenshtein` library (not part
of src/) computes the standard Levenshtein edit distance; this is its
textbook recursive definition. -/
def lev : Str → Str → ℕ
  | [], b => b.length
  | a :: as, [] => (a :: as).length
  | a :: as, b :: bs =>
    if a = b then lev as bs
    else 1 + min (lev as (b :: bs)) (min (lev (a :: as) bs) (lev as bs))
termination_by a b => a.length + b.length

/-- Source `fuzzyScore` (similarity module of the rich engine variant):
`1 − lev(lowercase a, lowercase b) / max(|a|, |b|)`, with an explicit guard
returning `1` when both strings are empty. -/
def fuzzyScore (a b : Str) : ℚ :=
  let dist := lev (lower a) (lower b)
  let maxLen := max a.length b.length
  if maxLen = 0 then 1 else 1 - (dist : ℚ) / (maxLen : ℚ)

/-! Auxiliary facts about `splitWS` and `wordsOf` feeding the C7 theorem. -/

theorem splitWS_single_ws (c : Char) (hc : c.isWhitespace = true) :
    splitWS [c] = [[], []] := by
  rw [splitWS.eq_def]
  simp [hc, splitWS]

theorem splitWS_cons_ws_ws (c d : Char) (ds : Str) (hc : c.isWhitespace = true)
    (hd : d.isWhitespace = true) :
    splitWS (c :: d :: ds) = splitWS (d :: ds) := by
  conv_lhs => rw [splitWS]
  simp [hc, hd]

theorem splitWS_cons_ws_nws (c d : Char) (ds : Str) (hc : c.isWhitespace = true)
    (hd : d.isWhitespace = false) :
    splitWS (c :: d :: ds) = [] :: splitWS (d :: ds) := by
  conv_lhs => rw [splitWS]
  simp [hc, hd]

theorem splitWS_cons_nws (c : Char) (cs : Str) (hc : c.isWhitespace = false) :
    splitWS (c :: cs) =
      match splitWS cs with
      | [] => [[c]]
      | w :: ws => (c :: w) :: ws := by
  rw [splitWS.eq_def]
  simp [hc]

theorem splitWS_ne_nil (s : Str) : splitWS s ≠ [] := by
  induction s with
  | nil => simp [splitWS]
  | cons c cs ih =>
    by_cases hc : c.isWhitespace
    · cases cs with
      | nil => simp [splitWS_single_ws c hc]
      | cons d ds =>
        by_cases hd : d.isWhitespace
        · rw [splitWS_cons_ws_ws c d ds hc hd]; exact ih
        · rw [splitWS_cons_ws_nws c d ds hc (by simpa using hd)]; simp
    · rw [splitWS_cons_nws c cs (by simpa using hc)]
      cases h : splitWS cs <;> simp

theorem splitWS_mem_no_ws (s : Str) :
    ∀ w ∈ splitWS s, ∀ c ∈ w, c.isWhitespace = false := by
  induction s with
  | nil =>
    intro w hw c hc
    simp only [splitWS, List.mem_singleton] at hw
    subst hw
    simp at hc
  | cons x xs ih =>
    intro w hw c hc
    by_cases hx : x.isWhitespace
    · cases xs with
      | nil =>
        rw [splitWS_single_ws x hx] at hw
        rcases List.mem_cons.mp hw with h | h
        · subst h; simp at hc
        · simp only [List.mem_singleton] at h
          subst h; simp at hc
      | cons d ds =>
        by_cases hd : d.isWhitespace
        · rw [splitWS_cons_ws_ws x d ds hx hd] at hw
          exact ih w hw c hc
        · rw [splitWS_cons_ws_nws x d ds hx (by simpa using hd)] at hw
          rcases List.mem_cons.mp hw with h | h
          · subst h; simp at hc
          · exact ih w h c hc
    · rw [splitWS_cons_nws x xs (by simpa using hx)] at hw
      rcases h : splitWS xs with _ | ⟨w0, ws0⟩
      · exact absurd h (splitWS_ne_nil xs)
      · rw [h] at hw
        rcases List.mem_cons.mp hw with h1 | h1
        · subst h1
          rcases List.mem_cons.mp hc with h2 | h2
          · subst h2; simpa using hx
          · exact ih w0 (by simp [h]) c h2
        · exact ih w (by simp [h, h1]) c hc

theorem wordsOf_mem (s : Str) :
    ∀ w ∈ wordsOf s, w ≠ [] ∧ ∀ c ∈ w, c.isWhitespace = false := by
  intro w hw
  rcases List.mem_filter.mp hw with ⟨hmem, hne⟩
  constructor
  · intro h
    subst h
    simp at hne
  · exact splitWS_mem_no_ws s w hmem

/-- C7: `keywordScore(q, t)` equals `hits/|words|`, where `words` is the
lowercased query split on whitespace with empty pieces dropped (every word is
non-empty and whitespace-free), `hits` counts the words occurring as
substrings of the lowercased text, and the score is `0` when the query has no
non-empty words. -/
theorem keywordScore_spec (q t : Str) :
    (∀ w ∈ wordsOf (lower q), w ≠ [] ∧ ∀ c ∈ w, c.isWhitespace = false) ∧
    (wordsOf (lower q) = [] → keywordScore q t = 0) ∧
    (wordsOf (lower q) ≠ [] →
      keywordScore q t =
        ((wordsOf (lower q)).countP (fun w => decide (w <:+: lower t)) : ℚ) /
          ((wordsOf (lower q)).length : ℚ)) := by
  refine ⟨wordsOf_mem (lower q), ?_, ?_⟩
  · intro h
    simp [keywordScore, h]
  · intro h
    have hlen : (wordsOf (lower q)).length ≠ 0 := by
      simpa [List.length_eq_zero] using h
    simp only [keywordScore, hlen, if_neg]
    rw [List.countP_eq_length_filter]
    rfl

/-- C7 witness: concrete evaluation of the keyword score theorem. -/
theorem keywordScore_spec_witness :
    keywordScore ['a', ' ', 'b'] ['x', 'a', 'y'] =
      (((wordsOf (lower ['a', ' ', 'b'])).countP
          (fun w => decide (w <:+: lower ['x', 'a', 'y']))) : ℚ) /
        ((wordsOf (lower ['a', ' ', 'b'])).length : ℚ) :=
  (keywordScore_spec ['a', ' ', 'b'] ['x', 'a', 'y']).2.2 (by decide)

/-- C8: `fuzzyScore(a, b)` equals
`1 − lev(lowercase(a), lowercase(b)) / max(|a|, |b|)` whenever some string is
non-empty, and is exactly `1` when both strings are empty. -/
theorem fuzzyScore_spec (a b : Str) :
    (max a.length b.length ≠ 0 →
      fuzzyScore a b =
        1 - (lev (lower a) (lower b) : ℚ) / (max a.length b.length : ℚ)) ∧
    (a = [] → b = [] → fuzzyScore a b = 1) := by
  constructor
  · intro h
    simp [fuzzyScore, h]
  · intro ha hb
    subst ha
    subst hb
    simp [fuzzyScore]

/-- C8 witness: concrete evaluation of the fuzzy score theorem. -/
theorem fuzzyScore_spec_witness :
    fuzzyScore ['a'] [] =
      1 - (lev (lower ['a']) (lower []) : ℚ) / (max (['a'] : Str).length ([] : Str).length : ℚ) ∧
    fuzzyScore [] [] = 1 :=
  ⟨(fuzzyScore_spec ['a'] []).1 (by decide), (fuzzyScore_spec [] []).2 rfl rfl⟩

/-! Hybrid ranker (ranker.ts). -/

/-- Partial weights as supplied by the caller; `none` components fall back to
the defaults `0.7 / 0.15 / 0.15` via the JS object spread. -/
structure HybridWeights where
  semantic : Option ℚ
  fuzzy : Option ℚ
  keyword : Option ℚ

/-- Source `hybridScore` (ranker.ts). Defaults substitute for omitted weight
components; the merged weights are divided by their total. A zero total makes
the JS code divide by zero (NaN); that case is modelled as `none`. -/
def hybridScore (semantic fuzzy keyword : ℚ) (w : HybridWeights) : Option ℚ :=
  let ws := w.semantic.getD (7/10)
  let wf := w.fuzzy.getD (15/100)
  let wk := w.keyword.getD (15/100)
  let total := ws + wf + wk
  if total = 0 then none
  else some ((ws / total) * semantic + (wf / total) * fuzzy + (wk / total) * keyword)

/-- C5 (amended): when the merged weights are non-negative and not all zero,
`hybridScore` is a convex combination of the three component scores: the
effective weights are non-negative and sum exactly to `1`. -/
theorem hybridScore_convex (s f k : ℚ) (w : HybridWeights)
    (hs : 0 ≤ w.semantic.getD (7/10)) (hf : 0 ≤ w.fuzzy.getD (15/100))
    (hk : 0 ≤ w.keyword.getD (15/100))
    (hnz : ¬(w.semantic.getD (7/10) = 0 ∧ w.fuzzy.getD (15/100) = 0 ∧
      w.keyword.getD (15/100) = 0)) :
    ∃ as af ak : ℚ,
      hybridScore s f k w = some (as * s + af * f + ak * k) ∧
      0 ≤ as ∧ 0 ≤ af ∧ 0 ≤ ak ∧ as + af + ak = 1 := by
  set ws := w.semantic.getD (7/10) with hws
  set wf := w.fuzzy.getD (15/100) with hwf
  set wk := w.keyword.getD (15/100) with hwk
  have htot : 0 < ws + wf + wk := by
    rcases lt_or_eq_of_le hs with h | h
    · have : 0 ≤ wf + wk := add_nonneg hf hk
      linarith
    · rcases lt_or_eq_of_le hf with h2 | h2
      · linarith
      · rcases lt_or_eq_of_le hk with h3 | h3
        · linarith
        · exact absurd ⟨h.symm, h2.symm, h3.symm⟩ hnz
  have hne : ws + wf + wk ≠ 0 := ne_of_gt htot
  refine ⟨ws / (ws + wf + wk), wf / (ws + wf + wk), wk / (ws + wf + wk), ?_, ?_, ?_, ?_, ?_⟩
  · simp only [hybridScore, ← hws, ← hwf, ← hwk, hne, if_neg, if_false]
  · exact div_nonneg hs htot.le
  · exact div_nonneg hf htot.le
  · exact div_nonneg hk htot.le
  · field_simp

/-- C5 witness: with only the keyword weight supplied (as zero), the merged
weights are `(0.7, 0.15, 0)` and the score is still a convex combination. -/
theorem hybridScore_convex_witness :
    ∃ as af ak : ℚ,
      hybridScore 1 (1/2) 0 ⟨none, none, some 0⟩ = some (as * 1 + af * (1/2) + ak * 0) ∧
      0 ≤ as ∧ 0 ≤ af ∧ 0 ≤ ak ∧ as + af + ak = 1 :=
  hybridScore_convex 1 (1/2) 0 ⟨none, none, some 0⟩ (by norm_num) (by norm_num)
    (by norm_num) (by norm_num)

/-- C5 counterexample: supplying all three weights as `0` does not fall back
to the defaults; the code divides by the zero total (NaN in JS, `none` here),
whereas the default weights applied to scores `(1, 1, 1)` would yield `1`. -/
theorem hybridScore_allzero_cex :
    hybridScore 1 1 1 ⟨some 0, some 0, some 0⟩ = none ∧
    hybridScore 1 1 1 ⟨none, none, none⟩ = some 1 := by
  constructor
  · simp [hybridScore]
  · norm_num [hybridScore]

/-! Score normalization (utils.ts `normalizeScore` and the rich similarity
module's `calculateScoreStats`). -/

/-- Source `normalizeScore` (utils.ts). `floorMax` is the fourth TS parameter
with default value `0`; every engine call site passes only three arguments, so
callers below use `0`. -/
def normalizeScore (value mn mx floorMax : ℚ) : ℚ :=
  let effectiveMax := max mx floorMax
  if effectiveMax ≤ mn then (if 0 < value then 1 else 0)
  else max 0 (min 1 ((value - mn) / (effectiveMax - mn)))

/-- Raw per-candidate component scores. -/
structure RawScores where
  semantic : ℚ
  fuzzy : ℚ
  keyword : ℚ

/-- Per-component minimum and maximum of a batch. -/
structure MinMax where
  mn : ℚ
  mx : ℚ

/-- Per-batch statistics for the three components. -/
structure ScoreStats where
  semantic : MinMax
  fuzzy : MinMax
  keyword : MinMax

/-- Minimum of a non-empty batch, the fold the source performs (its `Infinity`
initial accumulator only matters for the empty batch, handled separately). -/
def listMin (x : ℚ) (xs : List ℚ) : ℚ := xs.foldl min x

/-- Maximum of a non-empty batch, as the source's fold. -/
def listMax (x : ℚ) (xs : List ℚ) : ℚ := xs.foldl max x

/-- Source `calculateScoreStats`: per-component `(min, max)` over the batch,
with the fixed `(0, 1)` ranges for an empty batch. -/
def calculateScoreStats (scores : List RawScores) : ScoreStats :=
  match scores with
  | [] => ⟨⟨0, 1⟩, ⟨0, 1⟩, ⟨0, 1⟩⟩
  | s0 :: rest =>
    ⟨⟨listMin s0.semantic (rest.map RawScores.semantic),
      listMax s0.semantic (rest.map RawScores.semantic)⟩,
     ⟨listMin s0.fuzzy (rest.map RawScores.fuzzy),
      listMax s0.fuzzy (rest.map RawScores.fuzzy)⟩,
     ⟨listMin s0.keyword (rest.map RawScores.keyword),
      listMax s0.keyword (rest.map RawScores.keyword)⟩⟩

/-- C6 (amended): every normalized component lies in `[0, 1]`; the value is
the min-max rescaling clamped to `[0, 1]` with the effective maximum
`max(max, 0)` (due to the `floorMax = 0` default), and when that effective
maximum is at most the minimum, a positive value maps to `1` and any other
value to `0`. -/
theorem normalizeScore_spec (v mn mx : ℚ) :
    0 ≤ normalizeScore v mn mx 0 ∧ normalizeScore v mn mx 0 ≤ 1 ∧
    (max mx 0 ≤ mn → normalizeScore v mn mx 0 = if 0 < v then 1 else 0) ∧
    (mn < max mx 0 →
      normalizeScore v mn mx 0 = max 0 (min 1 ((v - mn) / (max mx 0 - mn)))) := by
  refine ⟨?_, ?_, ?_, ?_⟩
  · by_cases h : max mx 0 ≤ mn
    · by_cases hv : 0 < v <;> simp [normalizeScore, h, hv]
    · simp [normalizeScore, h]
  · by_cases h : max mx 0 ≤ mn
    · by_cases hv : 0 < v <;> simp [normalizeScore, h, hv]
    · simp only [normalizeScore, h, if_neg, if_false]
      exact max_le (by norm_num) (min_le_left _ _)
  · intro h
    simp [normalizeScore, h]
  · intro h
    simp [normalizeScore, not_le.mpr h]

/-- C6 amended-theorem witness: concrete evaluation of both branches. -/
theorem normalizeScore_spec_witness :
    (0 ≤ normalizeScore 3 1 2 0 ∧ normalizeScore 3 1 2 0 ≤ 1) ∧
    normalizeScore 3 3 3 0 = 1 ∧
    normalizeScore (3/2) 1 2 0 = max 0 (min 1 (((3/2 : ℚ) - 1) / (max 2 0 - 1))) :=
  ⟨⟨(normalizeScore_spec 3 1 2).1, (normalizeScore_spec 3 1 2).2.1⟩,
   (normalizeScore_spec 3 3 3).2.2.1 (by norm_num),
   (normalizeScore_spec (3/2) 1 2).2.2.2 (by norm_num)⟩

/-- C6 counterexample: in a batch whose semantic components are all negative
(min `−1/2`, max `−1/4`), the code normalizes with the effective maximum
`max(max, 0) = 0`, so the batch maximum maps to `1/2`, not to
`(value − min)/(max − min) = 1` as the claim states. -/
theorem normalizeScore_negative_batch_cex :
    (calculateScoreStats [⟨-1/2, 0, 0⟩, ⟨-1/4, 0, 0⟩]).semantic.mn = -1/2 ∧
    (calculateScoreStats [⟨-1/2, 0, 0⟩, ⟨-1/4, 0, 0⟩]).semantic.mx = -1/4 ∧
    normalizeScore (-1/4) (-1/2) (-1/4) 0 = 1/2 ∧
    ((-1/4 : ℚ) - (-1/2)) / ((-1/4 : ℚ) - (-1/2)) = 1 := by
  refine ⟨?_, ?_, ?_, by norm_num⟩
  · norm_num [calculateScoreStats, listMin]
  · norm_num [calculateScoreStats, listMax]
  · rw [normalizeScore]
    norm_num

/-! LRU vector cache (the cache module, src/unnamed/part_005). The JS `Map`
iterates in insertion order, so the entry list is ordered from least recently
to most recently used. Hit/miss statistics do not affect the entry list and
are omitted. -/

abbrev Vec := List ℚ

/-- JS `Map.get`: the (unique) entry with the key. -/
def mapGet : List (String × Vec) → String → Option Vec
  | [], _ => none
  | p :: ps, k => if p.1 = k then some p.2 else mapGet ps k

/-- JS `Map.delete`: drop the entry with the key, preserving the order of the
remaining entries. -/
def mapDelete (ents : List (String × Vec)) (k : String) : List (String × Vec) :=
  ents.filter (fun p => p.1 ≠ k)

structure VectorCache where
  maxSize : ℕ
  entries : List (String × Vec)

def keysOf (c : VectorCache) : List String := c.entries.map (fun p => p.1)

/-- Source `VectorCache.get`: on a hit the entry is deleted and re-added,
moving it to the most-recently-used end. -/
def cacheGet (c : VectorCache) (k : String) : Option Vec × VectorCache :=
  match mapGet c.entries k with
  | some v => (some v, { c with entries := mapDelete c.entries k ++ [(k, v)] })
  | none => (none, c)

/-- Source `VectorCache.set`, eviction loop: while `size ≥ maxSize` delete the
oldest key. When the map is empty the JS iterator yields `undefined`, nothing
is deleted, and the loop spins forever; that divergence is modelled as
`none`. -/
def evictLoop (maxSize : ℕ) : List (String × Vec) → Option (List (String × Vec))
  | [] => if maxSize ≤ 0 then none else some []
  | x :: xs =>
    if maxSize ≤ (x :: xs).length then evictLoop maxSize xs else some (x :: xs)

/-- Entry list of a cache after the delete-if-present step of `set`. -/
def cacheE1 (c : VectorCache) (k : String) : List (String × Vec) :=
  if (mapGet c.entries k).isSome then mapDelete c.entries k else c.entries

/-- Source `VectorCache.set`: delete an existing entry for the key, evict from
the least-recently-used end while at capacity, then append the new entry at
the most-recently-used end. `none` models the non-terminating `maxSize = 0`
loop. -/
def cacheSet (c : VectorCache) (k : String) (v : Vec) : Option VectorCache :=
  match evictLoop c.maxSize (cacheE1 c k) with
  | some e2 => some { c with entries := e2 ++ [(k, v)] }
  | none => none

inductive CacheOp where
  | get (k : String)
  | set (k : String) (v : Vec)

def setKeysOf : List CacheOp → List String
  | [] => []
  | .get _ :: rest => setKeysOf rest
  | .set k _ :: rest => k :: setKeysOf rest

def applyCacheOp (c : VectorCache) : CacheOp → Option VectorCache
  | .get k => some (cacheGet c k).2
  | .set k v => cacheSet c k v

def runCacheFrom (c : VectorCache) (ops : List CacheOp) : Option VectorCache :=
  ops.foldlM applyCacheOp c

def runCache (maxSize : ℕ) (ops : List CacheOp) : Option VectorCache :=
  runCacheFrom ⟨maxSize, []⟩ ops

/-! Analysis of the eviction loop. -/

theorem evictLoop_zero_maxSize (l : List (String × Vec)) :
    evictLoop 0 l = none := by
  induction l with
  | nil => rfl
  | cons x xs ih => simpa [evictLoop] using ih

theorem evictLoop_eq_drop (m : ℕ) (hm : 1 ≤ m) (l : List (String × Vec)) :
    evictLoop m l = some (l.drop (l.length + 1 - m)) := by
  induction l with
  | nil =>
    have h0 : ¬m ≤ 0 := by omega
    simp [evictLoop, h0]
  | cons x xs ih =>
    by_cases h : m ≤ xs.length + 1
    · have hd : xs.length + 1 + 1 - m = (xs.length + 1 - m) + 1 := by omega
      rw [evictLoop, if_pos (by simpa using h), ih]
      simp only [List.length_cons]
      rw [hd, List.drop_succ_cons]
    · have hd : xs.length + 1 + 1 - m = 0 := by omega
      rw [evictLoop, if_neg (by simpa using h)]
      simp [hd]

theorem cacheSet_eq (c : VectorCache) (k : String) (v : Vec) (hm : 1 ≤ c.maxSize) :
    cacheSet c k v =
      some { c with entries :=
        (cacheE1 c k).drop ((cacheE1 c k).length + 1 - c.maxSize) ++ [(k, v)] } := by
  simp [cacheSet, evictLoop_eq_drop c.maxSize hm]

/-- C10: `VectorCache.set` terminates precisely when `maxSize ≥ 1`: each
iteration of the eviction loop removes one entry until the size is below
capacity, whereas with `maxSize = 0` the loop reaches the empty map and never
exits (modelled as `none`). -/
theorem cacheSet_terminates (c : VectorCache) (k : String) (v : Vec) :
    (1 ≤ c.maxSize → ∃ c', cacheSet c k v = some c') ∧
    (c.maxSize = 0 → cacheSet c k v = none) := by
  constructor
  · intro hm
    exact ⟨_, cacheSet_eq c k v hm⟩
  · intro h0
    simp [cacheSet, h0, evictLoop_zero_maxSize]

/-- C10 witness: a capacity-1 set terminates; a capacity-0 set diverges. -/
theorem cacheSet_terminates_witness :
    (∃ c', cacheSet ⟨1, []⟩ "a" [] = some c') ∧ cacheSet ⟨0, []⟩ "a" [] = none :=
  ⟨(cacheSet_terminates ⟨1, []⟩ "a" []).1 (by norm_num),
   (cacheSet_terminates ⟨0, []⟩ "a" []).2 rfl⟩

/-! Key-list bookkeeping for the LRU invariant. -/

theorem keys_mapDelete (e : List (String × Vec)) (k : String) :
    (mapDelete e k).map (fun p => p.1) = (e.map (fun p => p.1)).filter (fun x => x ≠ k) := by
  induction e with
  | nil => rfl
  | cons p ps ih =>
    by_cases h : p.1 = k
    · have h1 : mapDelete (p :: ps) k = mapDelete ps k := by
        simp [mapDelete, List.filter_cons, h]
      have h2 : ((p :: ps).map (fun p => p.1)).filter (fun x => x ≠ k)
          = (ps.map (fun p => p.1)).filter (fun x => x ≠ k) := by
        simp [List.filter_cons, h]
      rw [h1, h2, ih]
    · have h1 : mapDelete (p :: ps) k = p :: mapDelete ps k := by
        simp [mapDelete, List.filter_cons, h]
      have h2 : ((p :: ps).map (fun p => p.1)).filter (fun x => x ≠ k)
          = p.1 :: (ps.map (fun p => p.1)).filter (fun x => x ≠ k) := by
        simp [List.filter_cons, h]
      rw [h1, h2, List.map_cons, ih]

theorem mapGet_isSome_iff (e : List (String × Vec)) (k : String) :
    (mapGet e k).isSome ↔ k ∈ e.map (fun p => p.1) := by
  induction e with
  | nil => simp [mapGet]
  | cons p ps ih =>
    by_cases h : p.1 = k
    · simp [mapGet, h]
    · have h' : ¬k = p.1 := fun hh => h hh.symm
      simp [mapGet, h, h', ih]

theorem length_filter_ne_of_nodup {l : List String} {k : String}
    (h : l.Nodup) (hk : k ∈ l) :
    (l.filter (fun x => x ≠ k)).length = l.length - 1 := by
  induction l with
  | nil => simp at hk
  | cons a l ih =>
    have hnd := List.nodup_cons.mp h
    by_cases hak : a = k
    · subst hak
      have hfil : l.filter (fun x => x ≠ a) = l := by
        refine List.filter_eq_self.mpr ?_
        intro x hx
        simpa using fun hxa : x = a => hnd.1 (hxa ▸ hx)
      have hstep : (a :: l).filter (fun x => x ≠ a) = l := by
        rw [List.filter_cons, if_neg (by simp), hfil]
      rw [hstep]
      simp
    · have hkl : k ∈ l := by
        rcases List.mem_cons.mp hk with h1 | h1
        · exact absurd h1.symm hak
        · exact h1
      have hlen := ih hnd.2 hkl
      have hpos : 1 ≤ l.length := List.length_pos.mpr (List.ne_nil_of_mem hkl)
      have hstep : (a :: l).filter (fun x => x ≠ k) = a :: l.filter (fun x => x ≠ k) := by
        rw [List.filter_cons, if_pos (by simp [hak])]
      rw [hstep]
      simp only [List.length_cons, hlen]
      omega

theorem keysOf_length (c : VectorCache) : (keysOf c).length = c.entries.length := by
  simp [keysOf]

theorem cacheE1_facts (c : VectorCache) (k : String) (hnd : (keysOf c).Nodup) :
    ((cacheE1 c k).map (fun p => p.1)).Nodup ∧
    k ∉ (cacheE1 c k).map (fun p => p.1) ∧
    (∀ x ∈ (cacheE1 c k).map (fun p => p.1), x ∈ keysOf c) ∧
    ((cacheE1 c k).map (fun p => p.1)).toFinset = (keysOf c).toFinset.erase k ∧
    (cacheE1 c k).length =
      (if k ∈ keysOf c then c.entries.length - 1 else c.entries.length) := by
  by_cases hk : (mapGet c.entries k).isSome
  · have hkmem : k ∈ keysOf c := (mapGet_isSome_iff c.entries k).mp hk
    have he : cacheE1 c k = mapDelete c.entries k := by
      simp [cacheE1, hk]
    have hkeys : (cacheE1 c k).map (fun p => p.1)
        = (keysOf c).filter (fun x => x ≠ k) := by
      rw [he]
      exact keys_mapDelete c.entries k
    refine ⟨?_, ?_, ?_, ?_, ?_⟩
    · rw [hkeys]
      exact hnd.filter _
    · rw [hkeys]
      intro hmem
      have := (List.mem_filter.mp hmem).2
      simp at this
    · rw [hkeys]
      intro x hx
      exact (List.mem_filter.mp hx).1
    · rw [hkeys]
      ext x
      simp only [List.mem_toFinset, List.mem_filter, Finset.mem_erase,
        decide_eq_true_eq, ne_eq]
      tauto
    · rw [if_pos hkmem]
      have h1 : (cacheE1 c k).length = ((cacheE1 c k).map (fun p => p.1)).length := by
        simp
      rw [h1, hkeys, length_filter_ne_of_nodup hnd hkmem, keysOf_length]
  · have hkmem : k ∉ keysOf c := fun hm => hk ((mapGet_isSome_iff c.entries k).mpr hm)
    have he : cacheE1 c k = c.entries := by
      simp [cacheE1, hk]
    have hkeys : (cacheE1 c k).map (fun p => p.1) = keysOf c := by
      rw [he]; rfl
    refine ⟨?_, ?_, ?_, ?_, ?_⟩
    · rw [hkeys]; exact hnd
    · rw [hkeys]; exact hkmem
    · rw [hkeys]; exact fun x hx => hx
    · rw [hkeys, Finset.erase_eq_of_not_mem (by simpa using hkmem)]
    · rw [if_neg hkmem, he]

/-- Recency/size invariant of a reachable cache: the capacity is `m`, keys are
duplicate-free, every cached key is among the set `S` of keys set so far, the
cached keys are exactly `S` while fewer than `m` distinct keys have been set,
and the cache holds exactly `m` entries afterwards. -/
def CacheInv (m : ℕ) (c : VectorCache) (S : Finset String) : Prop :=
  c.maxSize = m ∧ (keysOf c).Nodup ∧ (∀ x ∈ keysOf c, x ∈ S) ∧
  (S.card < m → (keysOf c).toFinset = S) ∧ (m ≤ S.card → c.entries.length = m)

theorem cacheGet_inv {m : ℕ} {c : VectorCache} {S : Finset String} (k : String)
    (h : CacheInv m c S) : CacheInv m (cacheGet c k).2 S := by
  obtain ⟨hm, hnd, hsub, hlt, hge⟩ := h
  cases hv : mapGet c.entries k with
  | none =>
    simp only [cacheGet, hv]
    exact ⟨hm, hnd, hsub, hlt, hge⟩
  | some v =>
    have hk : (mapGet c.entries k).isSome := by simp [hv]
    have hkmem : k ∈ keysOf c := (mapGet_isSome_iff c.entries k).mp hk
    have hkeys : ((mapDelete c.entries k ++ [(k, v)]).map (fun p => p.1))
        = (keysOf c).filter (fun x => x ≠ k) ++ [k] := by
      rw [List.map_append, keys_mapDelete]
      rfl
    have hndf : ((keysOf c).filter (fun x => x ≠ k)).Nodup := hnd.filter _
    have hknotf : k ∉ (keysOf c).filter (fun x => x ≠ k) := by
      intro hmem
      have := (List.mem_filter.mp hmem).2
      simp at this
    simp only [cacheGet, hv]
    refine ⟨hm, ?_, ?_, ?_, ?_⟩
    · show ((mapDelete c.entries k ++ [(k, v)]).map (fun p => p.1)).Nodup
      rw [hkeys]
      simp only [List.nodup_append, List.nodup_cons, List.not_mem_nil,
        not_false_iff, List.nodup_nil, and_true, true_and]
      constructor
      · exact hndf
      · intro x hx
        simp only [List.mem_singleton]
        intro hxk
        exact hknotf (hxk ▸ hx)
    · show ∀ x ∈ (mapDelete c.entries k ++ [(k, v)]).map (fun p => p.1), x ∈ S
      rw [hkeys]
      intro x hx
      rcases List.mem_append.mp hx with hx1 | hx1
      · exact hsub x ((List.mem_filter.mp hx1).1)
      · simp only [List.mem_singleton] at hx1
        exact hx1 ▸ hsub k hkmem
    · intro hcard
      show ((mapDelete c.entries k ++ [(k, v)]).map (fun p => p.1)).toFinset = S
      rw [hkeys, List.toFinset_append]
      have hts := hlt hcard
      ext x
      simp only [Finset.mem_union, List.mem_toFinset, List.mem_filter,
        decide_eq_true_eq, ne_eq, List.mem_singleton]
      constructor
      · rintro (⟨hx1, _⟩ | hxk)
        · rw [← hts]; simpa using hx1
        · rw [hxk]
          exact hsub k hkmem
      · intro hxS
        by_cases hxk : x = k
        · exact Or.inr hxk
        · refine Or.inl ⟨?_, hxk⟩
          have : x ∈ (keysOf c).toFinset := hts ▸ hxS
          simpa using this
    · intro hcard
      show (mapDelete c.entries k ++ [(k, v)]).length = m
      have h1 : (mapDelete c.entries k).length
          = ((mapDelete c.entries k).map (fun p => p.1)).length := by simp
      have h2 : (mapDelete c.entries k).length = c.entries.length - 1 := by
        rw [h1, keys_mapDelete]
        have hfold : (List.map (fun p => p.1) c.entries) = keysOf c := rfl
        rw [hfold, length_filter_ne_of_nodup hnd hkmem, keysOf_length]
      have h3 : 1 ≤ c.entries.length := by
        rw [← keysOf_length]
        exact List.length_pos.mpr (List.ne_nil_of_mem hkmem)
      have h4 := hge hcard
      simp only [List.length_append, List.length_cons, List.length_nil, h2]
      omega

theorem cacheSet_inv {m : ℕ} {c : VectorCache} {S : Finset String}
    (hm1 : 1 ≤ m) (k : String) (v : Vec) (h : CacheInv m c S) :
    ∃ c', cacheSet c k v = some c' ∧ CacheInv m c' (insert k S) := by
  obtain ⟨hm, hnd, hsub, hlt, hge⟩ := h
  obtain ⟨hE1nd, hE1k, hE1sub, hE1fin, hE1len⟩ := cacheE1_facts c k hnd
  have hmc : 1 ≤ c.maxSize := by omega
  refine ⟨_, cacheSet_eq c k v hmc, ?_⟩
  have hkeys : (((cacheE1 c k).drop ((cacheE1 c k).length + 1 - c.maxSize)
        ++ [(k, v)]).map (fun p => p.1))
      = ((cacheE1 c k).map (fun p => p.1)).drop
          ((cacheE1 c k).length + 1 - c.maxSize) ++ [k] := by
    rw [List.map_append, List.map_drop]
    rfl
  have hdnd : (((cacheE1 c k).map (fun p => p.1)).drop
      ((cacheE1 c k).length + 1 - c.maxSize)).Nodup :=
    hE1nd.sublist (List.drop_sublist _ _)
  have hdk : k ∉ ((cacheE1 c k).map (fun p => p.1)).drop
      ((cacheE1 c k).length + 1 - c.maxSize) :=
    fun hmem => hE1k (List.mem_of_mem_drop hmem)
  have hE1lenle : (cacheE1 c k).length ≤ c.entries.length := by
    by_cases hkk : k ∈ keysOf c <;> rw [hE1len] <;> simp [hkk]
  refine ⟨hm, ?_, ?_, ?_, ?_⟩
  · show ((_ ++ [(k, v)]).map (fun p => p.1)).Nodup
    rw [hkeys]
    simp only [List.nodup_append, List.nodup_cons, List.not_mem_nil,
      not_false_iff, List.nodup_nil, and_true, true_and]
    refine ⟨hdnd, ?_⟩
    intro x hx
    simp only [List.mem_singleton]
    intro hxk
    exact hdk (hxk ▸ hx)
  · show ∀ x ∈ (_ ++ [(k, v)]).map (fun p => p.1), x ∈ insert k S
    rw [hkeys]
    intro x hx
    rcases List.mem_append.mp hx with hx1 | hx1
    · exact Finset.mem_insert_of_mem
        (hsub x (hE1sub x (List.mem_of_mem_drop hx1)))
    · simp only [List.mem_singleton] at hx1
      rw [hx1]
      exact Finset.mem_insert_self k S
  · intro hA
    have hScard : S.card < m :=
      lt_of_le_of_lt (Finset.card_le_card (Finset.subset_insert k S)) hA
    have hts := hlt hScard
    have hcardlen : (keysOf c).toFinset.card = (keysOf c).length :=
      List.toFinset_card_of_nodup hnd
    have hclen : c.entries.length = S.card := by
      rw [← keysOf_length, ← hcardlen, hts]
    have hd0 : (cacheE1 c k).length + 1 - c.maxSize = 0 := by omega
    show ((_ ++ [(k, v)]).map (fun p => p.1)).toFinset = insert k S
    rw [hkeys, hd0, List.drop_zero, List.toFinset_append, hE1fin, hts]
    ext x
    simp only [Finset.mem_union, Finset.mem_erase, Finset.mem_insert,
      List.toFinset_cons, List.toFinset_nil, insert_emptyc_eq,
      Finset.mem_singleton]
    tauto
  · intro hB
    have hcardle := Finset.card_insert_le k S
    have hge1 : m - 1 ≤ (cacheE1 c k).length := by
      by_cases hS : S.card < m
      · have hts := hlt hS
        have hcardlen : (keysOf c).toFinset.card = (keysOf c).length :=
          List.toFinset_card_of_nodup hnd
        have hclen : c.entries.length = S.card := by
          rw [← keysOf_length, ← hcardlen, hts]
        have hkns : k ∉ S := by
          intro hkS
          rw [Finset.insert_eq_self.mpr hkS] at hB
          omega
        have hknk : k ∉ keysOf c := fun hmem => hkns (hsub k hmem)
        rw [hE1len, if_neg hknk]
        omega
      · push_neg at hS
        have hclen := hge hS
        by_cases hkk : k ∈ keysOf c <;> rw [hE1len] <;> simp [hkk] <;> omega
    show (_ ++ [(k, v)]).length = m
    simp only [List.length_append, List.length_drop, List.length_cons,
      List.length_nil]
    omega

theorem runCacheFrom_inv {m : ℕ} (hm1 : 1 ≤ m) :
    ∀ (ops : List CacheOp) (c : VectorCache) (S : Finset String),
      CacheInv m c S →
      ∃ c', runCacheFrom c ops = some c' ∧
        CacheInv m c' (S ∪ (setKeysOf ops).toFinset) := by
  intro ops
  induction ops with
  | nil =>
    intro c S h
    exact ⟨c, rfl, by simpa [setKeysOf] using h⟩
  | cons op rest ih =>
    intro c S h
    cases op with
    | get k =>
      obtain ⟨c', hrun, hinv⟩ := ih _ _ (cacheGet_inv k h)
      refine ⟨c', ?_, by simpa [setKeysOf] using hinv⟩
      simp only [runCacheFrom, List.foldlM_cons, applyCacheOp, Option.bind_eq_bind,
        Option.some_bind]
      exact hrun
    | set k v =>
      obtain ⟨c1, hset, hinv1⟩ := cacheSet_inv hm1 k v h
      obtain ⟨c', hrun, hinv⟩ := ih c1 _ hinv1
      refine ⟨c', ?_, ?_⟩
      · simp only [runCacheFrom, List.foldlM_cons, applyCacheOp, hset,
          Option.bind_eq_bind, Option.some_bind]
        exact hrun
      · have hsets : (insert k S) ∪ (setKeysOf rest).toFinset
            = S ∪ (setKeysOf (CacheOp.set k v :: rest)).toFinset := by
          simp only [setKeysOf, List.toFinset_cons]
          ext x
          simp only [Finset.mem_union, Finset.mem_insert]
          tauto
        rw [← hsets]
        exact hinv

/-- C4: with capacity `maxSize ≥ 1`, any sequence of `get`/`set` operations
from an empty cache keeps at most `maxSize` entries and reaches exactly
`maxSize` entries once at least `maxSize` distinct keys have been set;
moreover a `get` hit moves its entry to the most-recently-used end of the
recency-ordered entry list, and a `set` removes any existing entry for the
key, evicts exactly the oldest (least recently used) entries down to
capacity, and appends the new entry at the most-recently-used end. -/
theorem cache_lru (m : ℕ) (hm1 : 1 ≤ m) (ops : List CacheOp) :
    (∃ c', runCache m ops = some c' ∧
       c'.entries.length ≤ m ∧
       (m ≤ ((setKeysOf ops).toFinset).card → c'.entries.length = m)) ∧
    (∀ (c : VectorCache) (k : String) (v : Vec), mapGet c.entries k = some v →
       (cacheGet c k).2.entries = mapDelete c.entries k ++ [(k, v)]) ∧
    (∀ (c : VectorCache) (k : String) (v : Vec), 1 ≤ c.maxSize →
       cacheSet c k v =
         some { c with entries :=
           (cacheE1 c k).drop ((cacheE1 c k).length + 1 - c.maxSize) ++ [(k, v)] }) := by
  refine ⟨?_, ?_, ?_⟩
  · have hinit : CacheInv m ⟨m, []⟩ ∅ := by
      refine ⟨rfl, by simp [keysOf], by simp [keysOf], by simp [keysOf], ?_⟩
      intro hc
      simp only [Finset.card_empty] at hc
      omega
    obtain ⟨c', hrun, hm', hnd, hsub, hlt, hge⟩ :=
      runCacheFrom_inv hm1 ops ⟨m, []⟩ ∅ hinit
    refine ⟨c', hrun, ?_, ?_⟩
    · by_cases hS : (∅ ∪ (setKeysOf ops).toFinset).card < m
      · have hts := hlt hS
        have hcardlen : (keysOf c').toFinset.card = (keysOf c').length :=
          List.toFinset_card_of_nodup hnd
        rw [← keysOf_length, ← hcardlen, hts]
        omega
      · push_neg at hS
        rw [hge hS]
    · intro hcard
      apply hge
      simpa using hcard
  · intro c k v hv
    simp [cacheGet, hv]
  · intro c k v hm'
    exact cacheSet_eq c k v hm'

/-- C4 witness: capacity 1, two sets of distinct keys. -/
theorem cache_lru_witness :
    (∃ c', runCache 1 [CacheOp.set "a" [], CacheOp.set "b" []] = some c' ∧
       c'.entries.length ≤ 1 ∧
       (1 ≤ ((setKeysOf [CacheOp.set "a" [], CacheOp.set "b" []]).toFinset).card →
         c'.entries.length = 1)) ∧
    (∀ (c : VectorCache) (k : String) (v : Vec), mapGet c.entries k = some v →
       (cacheGet c k).2.entries = mapDelete c.entries k ++ [(k, v)]) ∧
    (∀ (c : VectorCache) (k : String) (v : Vec), 1 ≤ c.maxSize →
       cacheSet c k v =
         some { c with entries :=
           (cacheE1 c k).drop ((cacheE1 c k).length + 1 - c.maxSize) ++ [(k, v)] }) :=
  cache_lru 1 (by norm_num) [CacheOp.set "a" [], CacheOp.set "b" []]

/-! Engine item table (utils.ts `Simile`: `items`, `vectors`, `itemIndex`).
The engine's HNSW maintenance does not read or write the item and vector
tables and is analysed separately, so it is omitted from this state. -/

structure SearchItem (μ : Type) where
  id : String
  text : Str
  metadata : μ

structure EngineState (μ : Type) where
  items : List (SearchItem μ)
  vectors : List Vec
  itemIndex : List (String × ℕ)

/-- JS `Map.get` on the id index. -/
def idxGet : List (String × ℕ) → String → Option ℕ
  | [], _ => none
  | p :: ps, k => if p.1 = k then some p.2 else idxGet ps k

/-- JS `Map.set` on the id index: replace in place or append. -/
def idxSet (m : List (String × ℕ)) (k : String) (i : ℕ) : List (String × ℕ) :=
  if (idxGet m k).isSome then
    m.map (fun p => if p.1 = k then (k, i) else p)
  else m ++ [(k, i)]

/-- Worker for `buildIndex`: pairs each item id with its position, starting
from `n`. -/
def buildIndexFrom (n : ℕ) : List (SearchItem μ) → List (String × ℕ)
  | [] => []
  | it :: rest => (it.id, n) :: buildIndexFrom (n + 1) rest

/-- Source `new Map(items.map((item, i) => [item.id, i]))`. Item ids are
pairwise distinct in every reachable engine state, so the JS Map (where a
duplicate key would keep the last index) is the plain enumeration. -/
def buildIndex (items : List (SearchItem μ)) : List (String × ℕ) :=
  buildIndexFrom 0 items

/-- Source `Simile.add`, one item: replace the item and vector at the
existing internal index, or append and register the new index. The embedding
of the item's text is supplied as `vec` (the embedder is an external
collaborator). -/
def engineAddOne (st : EngineState μ) (item : SearchItem μ) (vec : Vec) :
    EngineState μ :=
  match idxGet st.itemIndex item.id with
  | some idx =>
    { st with items := st.items.set idx item, vectors := st.vectors.set idx vec }
  | none =>
    { items := st.items ++ [item], vectors := st.vectors ++ [vec],
      itemIndex := idxSet st.itemIndex item.id st.items.length }

/-- Source `Simile.add` over a batch of items with their vectors. -/
def engineAdd (st : EngineState μ) (pairs : List (SearchItem μ × Vec)) :
    EngineState μ :=
  pairs.foldl (fun s p => engineAddOne s p.1 p.2) st

/-- Source `Simile.remove`: keep the items (with their vectors) whose id is
not in the removal set, then rebuild the id index. -/
def engineRemove (st : EngineState μ) (ids : List String) : EngineState μ :=
  let keep := (st.items.zip st.vectors).filter (fun p => !(ids.contains p.1.id))
  { items := keep.map (fun p => p.1), vectors := keep.map (fun p => p.2),
    itemIndex := buildIndex (keep.map (fun p => p.1)) }

/-- Source `Simile.get`. -/
def engineGet (st : EngineState μ) (id : String) : Option (SearchItem μ) :=
  match idxGet st.itemIndex id with
  | some idx => st.items.get? idx
  | none => none

inductive EngineOp (μ : Type) where
  | add (pairs : List (SearchItem μ × Vec))
  | remove (ids : List String)

def applyEngineOp (st : EngineState μ) : EngineOp μ → EngineState μ
  | .add pairs => engineAdd st pairs
  | .remove ids => engineRemove st ids

def runEngineFrom (st : EngineState μ) (ops : List (EngineOp μ)) : EngineState μ :=
  ops.foldl applyEngineOp st

def runEngine (ops : List (EngineOp μ)) : EngineState μ :=
  runEngineFrom ⟨[], [], []⟩ ops

/-- Last item with the given id within one add batch (later batch entries
overwrite earlier ones). -/
def lastAdded : List (SearchItem μ × Vec) → String → Option (SearchItem μ)
  | [], _ => none
  | p :: rest, id =>
    match lastAdded rest id with
    | some it => some it
    | none => if p.1.id = id then some p.1 else none

/-- One step of the answer the claim prescribes for `get(id)`. -/
def specStep (id : String) (acc : Option (SearchItem μ)) :
    EngineOp μ → Option (SearchItem μ)
  | .add pairs =>
    match lastAdded pairs id with
    | some it => some it
    | none => acc
  | .remove ids => if ids.contains id then none else acc

/-- The claim's answer for `get(id)`: the item of the most recent add
containing the id, unless subsequently removed. -/
def specGet (ops : List (EngineOp μ)) (id : String) : Option (SearchItem μ) :=
  ops.foldl (specStep id) none

/-- Well-formedness of a reachable engine state: the id index is the
enumeration of the item table, item ids are pairwise distinct, and the vector
table is aligned with the item table. -/
def EngInv (st : EngineState μ) : Prop :=
  st.itemIndex = buildIndex st.items ∧
  (st.items.map (fun it => it.id)).Nodup ∧
  st.vectors.length = st.items.length

theorem idxGet_buildIndexFrom_none {μ : Type} (id : String) :
    ∀ (items : List (SearchItem μ)) (n : ℕ),
      idxGet (buildIndexFrom n items) id = none ↔ ∀ it ∈ items, it.id ≠ id := by
  intro items
  induction items with
  | nil => intro n; simp [buildIndexFrom, idxGet]
  | cons it rest ih =>
    intro n
    by_cases h : it.id = id
    · have hhit : idxGet (buildIndexFrom n (it :: rest)) id = some n := by
        simp [buildIndexFrom, idxGet, h]
      rw [hhit]
      constructor
      · intro hc
        simp at hc
      · intro hall
        exact absurd h (hall it (List.mem_cons_self it rest))
    · have hskip : idxGet (buildIndexFrom n (it :: rest)) id
          = idxGet (buildIndexFrom (n + 1) rest) id := by
        simp [buildIndexFrom, idxGet, h]
      rw [hskip, ih (n + 1)]
      constructor
      · intro hall x hx
        rcases List.mem_cons.mp hx with h1 | h1
        · rw [h1]; exact h
        · exact hall x h1
      · intro hall x hx
        exact hall x (List.mem_cons_of_mem _ hx)

theorem idxGet_buildIndexFrom_some {μ : Type} (id : String) :
    ∀ (items : List (SearchItem μ)) (n j : ℕ),
      idxGet (buildIndexFrom n items) id = some j →
      ∃ i it, j = n + i ∧ items.get? i = some it ∧ it.id = id := by
  intro items
  induction items with
  | nil => intro n j h; simp [buildIndexFrom, idxGet] at h
  | cons it rest ih =>
    intro n j h
    by_cases hid : it.id = id
    · have hhit : idxGet (buildIndexFrom n (it :: rest)) id = some n := by
        simp [buildIndexFrom, idxGet, hid]
      rw [hhit] at h
      have hj : n = j := Option.some.inj h
      exact ⟨0, it, by omega, rfl, hid⟩
    · have hskip : idxGet (buildIndexFrom n (it :: rest)) id
          = idxGet (buildIndexFrom (n + 1) rest) id := by
        simp [buildIndexFrom, idxGet, hid]
      rw [hskip] at h
      obtain ⟨i, x, hj, hget, hx⟩ := ih (n + 1) j h
      exact ⟨i + 1, x, by omega, by simpa using hget, hx⟩

/-- The id index built at offset `n`, looked up together with `find?`: a miss
means no item has the id; a hit returns the position of the first such item,
which is what `find?` returns. -/
theorem idxGet_find {μ : Type} (id : String) :
    ∀ (items : List (SearchItem μ)) (n : ℕ),
      (idxGet (buildIndexFrom n items) id = none ∧
        items.find? (fun it => it.id = id) = none) ∨
      (∃ i it, idxGet (buildIndexFrom n items) id = some (n + i) ∧
        items.get? i = some it ∧
        items.find? (fun it => it.id = id) = some it) := by
  intro items
  induction items with
  | nil => intro n; exact Or.inl ⟨rfl, rfl⟩
  | cons it rest ih =>
    intro n
    by_cases h : it.id = id
    · refine Or.inr ⟨0, it, ?_, rfl, ?_⟩
      · simp [buildIndexFrom, idxGet, h]
      · rw [List.find?_cons]
        simp [h]
    · have hskip : idxGet (buildIndexFrom n (it :: rest)) id
          = idxGet (buildIndexFrom (n + 1) rest) id := by
        simp [buildIndexFrom, idxGet, h]
      have hfind : (it :: rest).find? (fun it => it.id = id)
          = rest.find? (fun it => it.id = id) := by
        rw [List.find?_cons]
        simp [h]
      rcases ih (n + 1) with ⟨h1, h2⟩ | ⟨i, x, h1, h2, h3⟩
      · exact Or.inl ⟨by rw [hskip, h1], by rw [hfind, h2]⟩
      · refine Or.inr ⟨i + 1, x, ?_, by simpa using h2, by rw [hfind, h3]⟩
        rw [hskip, h1]
        have harith : n + 1 + i = n + (i + 1) := by omega
        rw [harith]

/-- Under the reachable-state invariant, `get` is first-match lookup in the
item table. -/
theorem engineGet_eq_find {μ : Type} (st : EngineState μ) (h : EngInv st)
    (id : String) :
    engineGet st id = st.items.find? (fun it => it.id = id) := by
  obtain ⟨hidx, _, _⟩ := h
  rcases idxGet_find id st.items 0 with ⟨h1, h2⟩ | ⟨i, x, h1, h2, h3⟩
  · simp [engineGet, hidx, buildIndex, h1, h2]
  · simp only [engineGet, hidx, buildIndex, h1, h3, Nat.zero_add]
    simpa using h2

theorem buildIndexFrom_append {μ : Type} (item : SearchItem μ) :
    ∀ (items : List (SearchItem μ)) (n : ℕ),
      buildIndexFrom n (items ++ [item])
        = buildIndexFrom n items ++ [(item.id, n + items.length)] := by
  intro items
  induction items with
  | nil => intro n; simp [buildIndexFrom]
  | cons it rest ih =>
    intro n
    simp only [List.cons_append, buildIndexFrom]
    have harith2 : n + 1 + rest.length = n + (it :: rest).length := by
      simp only [List.length_cons]
      omega
    show (it.id, n) :: buildIndexFrom (n + 1) (rest ++ [item])
        = (it.id, n) :: (buildIndexFrom (n + 1) rest
            ++ [(item.id, n + (it :: rest).length)])
    rw [ih (n + 1), harith2]

theorem buildIndexFrom_congr {μ : Type} :
    ∀ (l1 l2 : List (SearchItem μ)),
      l1.map (fun it => it.id) = l2.map (fun it => it.id) →
      ∀ n, buildIndexFrom n l1 = buildIndexFrom n l2 := by
  intro l1
  induction l1 with
  | nil =>
    intro l2 h n
    cases l2 with
    | nil => rfl
    | cons y r2 => simp at h
  | cons it rest ih =>
    intro l2 h n
    cases l2 with
    | nil => simp at h
    | cons y r2 =>
      simp only [List.map_cons, List.cons.injEq] at h
      simp [buildIndexFrom, h.1, ih r2 h.2 (n + 1)]

theorem list_set_same {α : Type} :
    ∀ (l : List α) (i : ℕ) (a : α), l.get? i = some a → l.set i a = l := by
  intro l
  induction l with
  | nil => intro i a h; simp at h
  | cons x xs ih =>
    intro i a h
    cases i with
    | zero =>
      simp only [List.get?_cons_zero, Option.some.injEq] at h
      simp [List.set_cons_zero, h]
    | succ i =>
      simp only [List.get?_cons_succ] at h
      simp [List.set_cons_succ, ih i a h]

theorem engInv_addOne {μ : Type} {st : EngineState μ} (h : EngInv st)
    (item : SearchItem μ) (vec : Vec) : EngInv (engineAddOne st item vec) := by
  obtain ⟨hidx, hnd, hlen⟩ := h
  cases hcase : idxGet st.itemIndex item.id with
  | some idx =>
    obtain ⟨i, it, hi, hget, hid⟩ :=
      idxGet_buildIndexFrom_some item.id st.items 0 idx (by rwa [hidx] at hcase)
    have hids : (st.items.set idx item).map (fun x => x.id)
        = st.items.map (fun x => x.id) := by
      rw [List.map_set]
      apply list_set_same
      have hieq : idx = i := by omega
      rw [hieq, List.get?_map, hget]
      simp [hid]
    have hred : engineAddOne st item vec
        = { st with
              items := st.items.set idx item
              vectors := st.vectors.set idx vec } := by
      simp [engineAddOne, hcase]
    rw [hred]
    refine ⟨?_, ?_, ?_⟩
    · show st.itemIndex = buildIndex (st.items.set idx item)
      rw [hidx]
      exact buildIndexFrom_congr st.items _ hids.symm 0
    · show ((st.items.set idx item).map (fun x => x.id)).Nodup
      rw [hids]; exact hnd
    · show (st.vectors.set idx vec).length = (st.items.set idx item).length
      simp [hlen]
  | none =>
    have hfresh : ∀ it ∈ st.items, it.id ≠ item.id :=
      (idxGet_buildIndexFrom_none item.id st.items 0).mp (by rwa [hidx] at hcase)
    have hnotin : item.id ∉ st.items.map (fun x => x.id) := by
      intro hmem
      rcases List.mem_map.mp hmem with ⟨x, hx, hxe⟩
      exact hfresh x hx hxe
    have hred : engineAddOne st item vec
        = { items := st.items ++ [item]
            vectors := st.vectors ++ [vec]
            itemIndex := idxSet st.itemIndex item.id st.items.length } := by
      simp [engineAddOne, hcase]
    rw [hred]
    refine ⟨?_, ?_, ?_⟩
    · show idxSet st.itemIndex item.id st.items.length
        = buildIndex (st.items ++ [item])
      rw [idxSet, if_neg (by simp [hcase]), hidx]
      show buildIndexFrom 0 st.items ++ [(item.id, st.items.length)]
        = buildIndexFrom 0 (st.items ++ [item])
      rw [buildIndexFrom_append]
      simp
    · show ((st.items ++ [item]).map (fun x => x.id)).Nodup
      simp only [List.map_append, List.map_cons, List.map_nil]
      rw [List.nodup_append]
      refine ⟨hnd, List.nodup_singleton _, ?_⟩
      intro x hx
      simp only [List.mem_singleton]
      intro hxe
      exact hnotin (hxe ▸ hx)
    · show (st.vectors ++ [vec]).length = (st.items ++ [item]).length
      simp [hlen]

theorem find?_set_of_id {μ : Type} (item : SearchItem μ) (id : String) :
    ∀ (items : List (SearchItem μ)) (idx : ℕ) (it : SearchItem μ),
      items.get? idx = some it → it.id = item.id →
      (items.map (fun x => x.id)).Nodup →
      (items.set idx item).find? (fun x => x.id = id)
        = if item.id = id then some item
          else items.find? (fun x => x.id = id) := by
  intro items
  induction items with
  | nil => intro idx it h; simp at h
  | cons y rest ih =>
    intro idx it hget hid hnd
    simp only [List.map_cons, List.nodup_cons] at hnd
    cases idx with
    | zero =>
      simp only [List.get?_cons_zero, Option.some.injEq] at hget
      rw [List.set_cons_zero]
      by_cases hcond : item.id = id
      · rw [if_pos hcond]
        have e1 : (item :: rest).find? (fun x => x.id = id) = some item :=
          List.find?_cons_of_pos _ (by simp [hcond])
        exact e1
      · rw [if_neg hcond]
        have hyid : ¬y.id = id := by
          rw [hget, hid]
          exact hcond
        have e1 : (item :: rest).find? (fun x => x.id = id)
            = rest.find? (fun x => x.id = id) :=
          List.find?_cons_of_neg _ (by simp [hcond])
        have e2 : (y :: rest).find? (fun x => x.id = id)
            = rest.find? (fun x => x.id = id) :=
          List.find?_cons_of_neg _ (by simp [hyid])
        rw [e1, e2]
    | succ i =>
      simp only [List.get?_cons_succ] at hget
      rw [List.set_cons_succ]
      have hyrest : y.id ∉ rest.map (fun x => x.id) := hnd.1
      by_cases hy : y.id = id
      · have hcond : ¬item.id = id := by
          intro hcontra
          apply hyrest
          rw [hy, ← hcontra, ← hid]
          exact List.mem_map.mpr ⟨it, List.get?_mem hget, rfl⟩
        rw [if_neg hcond]
        have e1 : (y :: rest.set i item).find? (fun x => x.id = id) = some y :=
          List.find?_cons_of_pos _ (by simp [hy])
        have e2 : (y :: rest).find? (fun x => x.id = id) = some y :=
          List.find?_cons_of_pos _ (by simp [hy])
        rw [e1, e2]
      · have e1 : (y :: rest.set i item).find? (fun x => x.id = id)
            = (rest.set i item).find? (fun x => x.id = id) :=
          List.find?_cons_of_neg _ (by simp [hy])
        have e2 : (y :: rest).find? (fun x => x.id = id)
            = rest.find? (fun x => x.id = id) :=
          List.find?_cons_of_neg _ (by simp [hy])
        rw [e1, e2]
        exact ih i it hget hid hnd.2

theorem engineGet_addOne {μ : Type} {st : EngineState μ} (h : EngInv st)
    (item : SearchItem μ) (vec : Vec) (id : String) :
    engineGet (engineAddOne st item vec) id
      = if item.id = id then some item else engineGet st id := by
  have h' := engInv_addOne h item vec
  rw [engineGet_eq_find _ h' id, engineGet_eq_find _ h id]
  obtain ⟨hidx, hnd, hlen⟩ := h
  cases hcase : idxGet st.itemIndex item.id with
  | some idx =>
    obtain ⟨i, it, hi, hget, hid⟩ :=
      idxGet_buildIndexFrom_some item.id st.items 0 idx (by rwa [hidx] at hcase)
    have hieq : idx = i := by omega
    show ((engineAddOne st item vec).items).find? (fun x => x.id = id) = _
    have hitems : (engineAddOne st item vec).items = st.items.set idx item := by
      simp [engineAddOne, hcase]
    rw [hitems, hieq]
    exact find?_set_of_id item id st.items i it hget hid hnd
  | none =>
    have hfresh : ∀ it ∈ st.items, it.id ≠ item.id :=
      (idxGet_buildIndexFrom_none item.id st.items 0).mp (by rwa [hidx] at hcase)
    have hitems : (engineAddOne st item vec).items = st.items ++ [item] := by
      simp [engineAddOne, hcase]
    rw [hitems, List.find?_append]
    by_cases hcond : item.id = id
    · have hnone : st.items.find? (fun x => x.id = id) = none := by
        rw [List.find?_eq_none]
        intro x hx
        simp only [decide_eq_true_eq]
        rw [← hcond]
        exact hfresh x hx
      rw [hnone, if_pos hcond]
      rw [List.find?_cons]
      simp [hcond]
    · rw [if_neg hcond]
      have hsingle : ([item] : List (SearchItem μ)).find? (fun x => x.id = id)
          = none := by
        rw [List.find?_cons]
        simp [hcond]
      rw [hsingle, Option.or_none]

theorem engInv_add {μ : Type} {st : EngineState μ} (h : EngInv st)
    (pairs : List (SearchItem μ × Vec)) : EngInv (engineAdd st pairs) := by
  induction pairs generalizing st with
  | nil => exact h
  | cons p rest ih => exact ih (engInv_addOne h p.1 p.2)

theorem engineGet_add {μ : Type} {st : EngineState μ} (h : EngInv st)
    (pairs : List (SearchItem μ × Vec)) (id : String) :
    engineGet (engineAdd st pairs) id
      = match lastAdded pairs id with
        | some it => some it
        | none => engineGet st id := by
  induction pairs generalizing st with
  | nil => rfl
  | cons p rest ih =>
    show engineGet (engineAdd (engineAddOne st p.1 p.2) rest) id = _
    rw [ih (engInv_addOne h p.1 p.2)]
    rw [engineGet_addOne h p.1 p.2 id]
    cases hl : lastAdded rest id with
    | some it => simp [lastAdded, hl]
    | none =>
      simp only [lastAdded, hl]
      by_cases hid : p.1.id = id <;> simp [hid]

theorem zip_filter_fst {μ : Type} (ids : List String) :
    ∀ (items : List (SearchItem μ)) (vecs : List Vec),
      vecs.length = items.length →
      ((items.zip vecs).filter (fun p => !(ids.contains p.1.id))).map
          (fun p => p.1)
        = items.filter (fun it => !(ids.contains it.id)) := by
  intro items
  induction items with
  | nil => intro vecs h; simp
  | cons it rest ih =>
    intro vecs h
    cases vecs with
    | nil => simp at h
    | cons v vrest =>
      simp only [List.length_cons, Nat.succ.injEq] at h
      rw [List.zip_cons_cons]
      by_cases hc : ids.contains it.id
      · have hcm : it.id ∈ ids := by simpa using hc
        have e1 : ((it, v) :: rest.zip vrest).filter
              (fun p => !(ids.contains p.1.id))
            = (rest.zip vrest).filter (fun p => !(ids.contains p.1.id)) := by
          simp [List.filter_cons, hcm]
        have e2 : (it :: rest).filter (fun x => !(ids.contains x.id))
            = rest.filter (fun x => !(ids.contains x.id)) := by
          simp [List.filter_cons, hcm]
        rw [e1, e2, ih vrest h]
      · have hcm : it.id ∉ ids := by simpa using hc
        have e1 : ((it, v) :: rest.zip vrest).filter
              (fun p => !(ids.contains p.1.id))
            = (it, v) :: (rest.zip vrest).filter
                (fun p => !(ids.contains p.1.id)) := by
          simp [List.filter_cons, hcm]
        have e2 : (it :: rest).filter (fun x => !(ids.contains x.id))
            = it :: rest.filter (fun x => !(ids.contains x.id)) := by
          simp [List.filter_cons, hcm]
        rw [e1, e2, List.map_cons, ih vrest h]

theorem engInv_remove {μ : Type} {st : EngineState μ} (h : EngInv st)
    (ids : List String) : EngInv (engineRemove st ids) := by
  obtain ⟨hidx, hnd, hlen⟩ := h
  have hkeep := zip_filter_fst ids st.items st.vectors hlen
  refine ⟨rfl, ?_, ?_⟩
  · show (((((st.items.zip st.vectors).filter
        (fun p => !(ids.contains p.1.id))).map (fun p => p.1))).map
          (fun it => it.id)).Nodup
    rw [hkeep]
    exact hnd.sublist ((List.filter_sublist _).map _)
  · show ((((st.items.zip st.vectors).filter
        (fun p => !(ids.contains p.1.id))).map (fun p => p.2))).length
      = ((((st.items.zip st.vectors).filter
        (fun p => !(ids.contains p.1.id))).map (fun p => p.1))).length
    simp

theorem find?_filter_of_imp {μ : Type} (p q : SearchItem μ → Bool)
    (himp : ∀ x, p x = true → q x = true) :
    ∀ l : List (SearchItem μ), (l.filter q).find? p = l.find? p := by
  intro l
  induction l with
  | nil => rfl
  | cons x rest ih =>
    by_cases hq : q x = true
    · have e1 : (x :: rest).filter q = x :: rest.filter q := by
        simp [List.filter_cons, hq]
      rw [e1]
      by_cases hp : p x = true
      · rw [List.find?_cons_of_pos _ hp, List.find?_cons_of_pos _ hp]
      · rw [List.find?_cons_of_neg _ hp, List.find?_cons_of_neg _ hp, ih]
    · have hp : ¬p x = true := fun hpx => hq (himp x hpx)
      have e1 : (x :: rest).filter q = rest.filter q := by
        simp only [List.filter_cons]
        rw [if_neg hq]
      rw [e1, List.find?_cons_of_neg _ hp]
      exact ih

theorem find?_filter_none {μ : Type} (p q : SearchItem μ → Bool)
    (hexc : ∀ x, p x = true → q x = false) (l : List (SearchItem μ)) :
    (l.filter q).find? p = none := by
  rw [List.find?_eq_none]
  intro x hx hp
  have hq := List.of_mem_filter hx
  rw [hexc x hp] at hq
  exact Bool.false_ne_true hq

theorem engineGet_remove {μ : Type} {st : EngineState μ} (h : EngInv st)
    (ids : List String) (id : String) :
    engineGet (engineRemove st ids) id
      = if ids.contains id then none else engineGet st id := by
  have h' := engInv_remove h ids
  rw [engineGet_eq_find _ h' id, engineGet_eq_find _ h id]
  have hitems : (engineRemove st ids).items
      = st.items.filter (fun it => !(ids.contains it.id)) :=
    zip_filter_fst ids st.items st.vectors h.2.2
  rw [hitems]
  by_cases hc : ids.contains id = true
  · rw [if_pos hc]
    apply find?_filter_none
    intro x hp
    simp only [decide_eq_true_eq] at hp
    rw [hp, hc]
    rfl
  · rw [if_neg hc]
    apply find?_filter_of_imp
    intro x hp
    simp only [decide_eq_true_eq] at hp
    have hcf : ids.contains id = false := by simpa using hc
    rw [hp, hcf]
    rfl

theorem engine_run_spec {μ : Type} :
    ∀ (ops : List (EngineOp μ)) (st : EngineState μ), EngInv st →
      EngInv (runEngineFrom st ops) ∧
      (∀ id, engineGet (runEngineFrom st ops) id
        = ops.foldl (specStep id) (engineGet st id)) := by
  intro ops
  induction ops with
  | nil => intro st h; exact ⟨h, fun id => rfl⟩
  | cons op rest ih =>
    intro st h
    have hstep : EngInv (applyEngineOp st op) := by
      cases op with
      | add pairs => exact engInv_add h pairs
      | remove ids => exact engInv_remove h ids
    obtain ⟨h1, h2⟩ := ih (applyEngineOp st op) hstep
    refine ⟨h1, fun id => ?_⟩
    have hrun : runEngineFrom st (op :: rest)
        = runEngineFrom (applyEngineOp st op) rest := rfl
    have hfold : (op :: rest).foldl (specStep id) (engineGet st id)
        = rest.foldl (specStep id) (specStep id (engineGet st id) op) := rfl
    have hinit : engineGet (applyEngineOp st op) id
        = specStep id (engineGet st id) op := by
      cases op with
      | add pairs =>
        rw [show applyEngineOp st (.add pairs) = engineAdd st pairs from rfl,
          engineGet_add h pairs id]
        rfl
      | remove ids =>
        rw [show applyEngineOp st (.remove ids) = engineRemove st ids from rfl,
          engineGet_remove h ids id]
        rfl
    rw [hrun, h2 id, hinit, hfold]

/-- C2: over any sequence of add/remove operations from an empty engine,
`get(id)` returns the item supplied by the most recent add containing that
id, or `none` if the id was never added or was subsequently removed; an add
whose id already exists replaces the stored item and vector at the same
internal index leaving the id index and size unchanged, while an add with a
fresh id increases the size by one. -/
theorem engine_get_spec (μ : Type) (ops : List (EngineOp μ)) :
    (∀ id, engineGet (runEngine ops) id = specGet ops id) ∧
    (∀ (item : SearchItem μ) (vec : Vec) (idx : ℕ),
      idxGet (runEngine ops).itemIndex item.id = some idx →
      (engineAddOne (runEngine ops) item vec).items.length
          = (runEngine ops).items.length ∧
      (engineAddOne (runEngine ops) item vec).items.get? idx = some item ∧
      (engineAddOne (runEngine ops) item vec).vectors.get? idx = some vec ∧
      (engineAddOne (runEngine ops) item vec).itemIndex
          = (runEngine ops).itemIndex) ∧
    (∀ (item : SearchItem μ) (vec : Vec),
      idxGet (runEngine ops).itemIndex item.id = none →
      (engineAddOne (runEngine ops) item vec).items.length
          = (runEngine ops).items.length + 1) := by
  have hinv0 : EngInv (⟨[], [], []⟩ : EngineState μ) := ⟨rfl, by simp, rfl⟩
  obtain ⟨hinv, hget⟩ := engine_run_spec ops ⟨[], [], []⟩ hinv0
  refine ⟨?_, ?_, ?_⟩
  · intro id
    exact hget id
  · intro item vec idx hcase
    have hinv2 : EngInv (runEngine ops) := hinv
    obtain ⟨hidx, hnd, hlen⟩ := hinv2
    obtain ⟨i, it, hi, hgeti, hid⟩ :=
      idxGet_buildIndexFrom_some item.id _ 0 idx (by rwa [hidx] at hcase)
    have hieq : idx = i := by omega
    have hlt : i < (runEngine ops).items.length := by
      by_contra hcon
      rw [List.get?_eq_none.mpr (Nat.le_of_not_lt hcon)] at hgeti
      exact Option.noConfusion hgeti
    have hred : engineAddOne (runEngine ops) item vec
        = { runEngine ops with
              items := (runEngine ops).items.set idx item
              vectors := (runEngine ops).vectors.set idx vec } := by
      simp [engineAddOne, hcase]
    rw [hred]
    refine ⟨by simp, ?_, ?_, rfl⟩
    · show ((runEngine ops).items.set idx item).get? idx = some item
      rw [hieq]
      exact List.get?_set_eq_of_lt _ hlt
    · show ((runEngine ops).vectors.set idx vec).get? idx = some vec
      rw [hieq]
      exact List.get?_set_eq_of_lt _ (by rw [hlen]; exact hlt)
  · intro item vec hcase
    have hred : engineAddOne (runEngine ops) item vec
        = { items := (runEngine ops).items ++ [item]
            vectors := (runEngine ops).vectors ++ [vec]
            itemIndex := idxSet (runEngine ops).itemIndex item.id
              (runEngine ops).items.length } := by
      simp [engineAddOne, hcase]
    rw [hred]
    simp

/-- C2 witness: a one-add run evaluated at its own id, and a fresh-id add
growing the table. -/
theorem engine_get_spec_witness :
    engineGet (runEngine [EngineOp.add [(⟨"a", ['x'], ()⟩, [1])]]) "a"
        = specGet [EngineOp.add [(⟨"a", ['x'], ()⟩, [1])]] "a" ∧
    (engineAddOne (runEngine [EngineOp.add [(⟨"a", ['x'], ()⟩, [1])]])
        ⟨"b", [], ()⟩ []).items.length
      = (runEngine [EngineOp.add [(⟨"a", ['x'], ()⟩, [1])]]).items.length + 1 :=
  ⟨(engine_get_spec Unit [EngineOp.add [(⟨"a", ['x'], ()⟩, [1])]]).1 "a",
   (engine_get_spec Unit [EngineOp.add [(⟨"a", ['x'], ()⟩, [1])]]).2.2
     ⟨"b", [], ()⟩ [] (by decide)⟩

/-! HNSW index (ann.ts). The JS `Map`s and `Set`s preserve insertion order
and are modelled as association lists / duplicate-free lists. Distances are
exact rationals with the engine's default cosine distance `1 − dot` (the
claims below do not depend on the metric); the dot product of JS
`Float32Array`s of unequal length reads out of range (NaN) and is modelled by
truncation, which only arises for inputs `add` rejects. The level drawn by
`randomLevel` (`Math.random`) is an oracle argument of `add`. -/

structure Cand where
  id : ℕ
  distance : ℚ
deriving DecidableEq

structure HNSWNode where
  id : ℕ
  vector : Vec
  connections : List (ℕ × List ℕ)
  level : ℕ

structure HNSWState where
  dimensions : ℕ
  M : ℕ
  efConstruction : ℕ
  efSearch : ℕ
  nodes : List (ℕ × HNSWNode)
  entryPoint : Option ℕ
  maxLevel : ℤ

/-- JS `Map.get` on the node table. -/
def nodesGet : List (ℕ × HNSWNode) → ℕ → Option HNSWNode
  | [], _ => none
  | p :: ps, k => if p.1 = k then some p.2 else nodesGet ps k

/-- JS `Map.set` on the node table: replace in place or append. -/
def nodesSet (m : List (ℕ × HNSWNode)) (k : ℕ) (nd : HNSWNode) :
    List (ℕ × HNSWNode) :=
  if (nodesGet m k).isSome then
    m.map (fun p => if p.1 = k then (k, nd) else p)
  else m ++ [(k, nd)]

/-- JS `Map.delete` on the node table. -/
def nodesDel (m : List (ℕ × HNSWNode)) (k : ℕ) : List (ℕ × HNSWNode) :=
  m.filter (fun p => p.1 ≠ k)

/-- In-place mutation of the node object stored under a key. -/
def nodeUpd (m : List (ℕ × HNSWNode)) (k : ℕ) (f : HNSWNode → HNSWNode) :
    List (ℕ × HNSWNode) :=
  m.map (fun p => if p.1 = k then (p.1, f p.2) else p)

def nodeUpdState (s : HNSWState) (k : ℕ) (f : HNSWNode → HNSWNode) :
    HNSWState :=
  { s with nodes := nodeUpd s.nodes k f }

/-- JS `Map.get` on a node's per-level connection map. -/
def connGet : List (ℕ × List ℕ) → ℕ → Option (List ℕ)
  | [], _ => none
  | p :: ps, l => if p.1 = l then some p.2 else connGet ps l

/-- The connection set of a node at a level (missing level reads as empty,
matching every use site in the source). -/
def connAt (nd : HNSWNode) (l : ℕ) : List ℕ :=
  (connGet nd.connections l).getD []

/-- JS `Map.set` on a connection map. -/
def connSetLevel (c : List (ℕ × List ℕ)) (l : ℕ) (v : List ℕ) :
    List (ℕ × List ℕ) :=
  if (connGet c l).isSome then
    c.map (fun p => if p.1 = l then (l, v) else p)
  else c ++ [(l, v)]

/-- JS `Set.add`: append if absent. -/
def setAdd (x : ℕ) (s : List ℕ) : List ℕ := if x ∈ s then s else s ++ [x]

/-- JS `Set.delete`. -/
def setDel (x : ℕ) (s : List ℕ) : List ℕ := s.filter (fun y => y ≠ x)

/-- Source: fetch-or-create the level's set, then `add` (ann.ts add, neighbor
side; also the new node's own side where the set always exists). -/
def connAddAt (nd : HNSWNode) (l : ℕ) (x : ℕ) : HNSWNode :=
  { nd with connections := connSetLevel nd.connections l (setAdd x (connAt nd l)) }

/-- Source `connections.get(level)?.delete(x)`: delete within the level's set
when the level is present (a missing level is a no-op, indistinguishable from
deleting in an empty set). -/
def connDelAt (nd : HNSWNode) (l : ℕ) (x : ℕ) : HNSWNode :=
  { nd with connections :=
      nd.connections.map (fun p => if p.1 = l then (p.1, setDel x p.2) else p) }

/-- Connection sets `0..level`, each initially empty (ann.ts add). -/
def emptyConnections : ℕ → List (ℕ × List ℕ)
  | 0 => [(0, [])]
  | n + 1 => emptyConnections n ++ [(n + 1, [])]

def dot (a b : Vec) : ℚ := ((a.zip b).map (fun p => p.1 * p.2)).sum

/-- Cosine distance `1 − dot` (the default distance function). -/
def distance (q v : Vec) : ℚ := 1 - dot q v

/-- Stable ascending sort by distance, modelling
`sort((a, b) => a.distance - b.distance)`. -/
def sortCands (cs : List Cand) : List Cand :=
  cs.insertionSort (fun a b => a.distance ≤ b.distance)

/-- One pass of `greedySearch`'s while body: fold over the (captured)
neighbor list, moving to any strictly closer neighbor. -/
def greedyPass (s : HNSWState) (q : Vec) (conns : List ℕ)
    (cur : ℕ) (curDist : ℚ) : ℕ × ℚ × Bool :=
  conns.foldl
    (fun acc nId =>
      match nodesGet s.nodes nId with
      | none => acc
      | some nb =>
        let d := distance q nb.vector
        if d < acc.2.1 then (nId, d, true) else acc)
    (cur, curDist, false)

/-- Source `greedySearch` while loop. Each improving pass strictly decreases
the current distance, so no node repeats and `nodes + 1` passes always
suffice; the fuel is that bound. -/
def greedyLoop (s : HNSWState) (q : Vec) (lvl : ℕ) :
    ℕ → ℕ → ℚ → ℕ
  | 0, cur, _ => cur
  | fuel + 1, cur, curDist =>
    let conns := match nodesGet s.nodes cur with
      | some nd => connAt nd lvl
      | none => []
    let r := greedyPass s q conns cur curDist
    if r.2.2 then greedyLoop s q lvl fuel r.1 r.2.1 else cur

/-- Source `greedySearch`. A start node absent from the table would throw a
TypeError in JS; the engine never reaches that case and it returns the start
node here. -/
def greedySearchFn (s : HNSWState) (q : Vec) (startNode : ℕ) (lvl : ℕ) : ℕ :=
  match nodesGet s.nodes startNode with
  | none => startNode
  | some nd =>
    greedyLoop s q lvl (s.nodes.length + 1) startNode (distance q nd.vector)

structure SLState where
  visited : List ℕ
  candidates : List Cand
  results : List Cand

/-- Total size of the connection sets at a level: every id the layer search
can ever push is drawn from these, which bounds its iteration count. -/
def connCountAt (s : HNSWState) (lvl : ℕ) : ℕ :=
  (s.nodes.map (fun p => (connAt p.2 lvl).length)).sum

/-- Source `searchLayer` main loop. Every pushed id is marked visited at push
time and only unvisited ids are pushed, so iterations are bounded by the
total connection count; the fuel is that bound plus the initial candidate. -/
def searchLayerLoop (s : HNSWState) (q : Vec) (ef : ℕ) (lvl : ℕ) :
    ℕ → List ℕ → List Cand → List Cand → List Cand
  | 0, _, _, results => sortCands results
  | fuel + 1, visited, candidates, results =>
    match sortCands candidates with
    | [] => sortCands results
    | current :: candRest =>
      let sortedRes := sortCands results
      let furthest := sortedRes.getLastD ⟨0, 0⟩
      if furthest.distance < current.distance ∧ ef ≤ results.length then
        sortCands results
      else
        let conns := match nodesGet s.nodes current.id with
          | some nd => connAt nd lvl
          | none => []
        let st := conns.foldl
          (fun (st : SLState) nId =>
            if nId ∈ st.visited then st
            else
              let visited' := st.visited ++ [nId]
              match nodesGet s.nodes nId with
              | none => { st with visited := visited' }
              | some nb =>
                let d := distance q nb.vector
                if st.results.length < ef ∨ d < furthest.distance then
                  let results1 := st.results ++ [⟨nId, d⟩]
                  let results2 :=
                    if ef < results1.length then (sortCands results1).dropLast
                    else results1
                  { visited := visited'
                    candidates := st.candidates ++ [⟨nId, d⟩]
                    results := results2 }
                else { st with visited := visited' })
          ⟨visited, candRest, results⟩
        searchLayerLoop s q ef lvl fuel st.visited st.candidates st.results

/-- Source `searchLayer`: seed with the entry node (empty result on a dead
entry), then loop. -/
def searchLayer (s : HNSWState) (q : Vec) (entry : ℕ) (ef : ℕ) (lvl : ℕ) :
    List Cand :=
  match nodesGet s.nodes entry with
  | none => []
  | some nd =>
    let d := distance q nd.vector
    searchLayerLoop s q ef lvl (connCountAt s lvl + 2) [entry] [⟨entry, d⟩]
      [⟨entry, d⟩]

/-- Source `selectNeighbors`: the `M` closest candidates. -/
def selectNeighbors (candidates : List Cand) (M : ℕ) : List Cand :=
  (sortCands candidates).take M

/-- Symmetric removal of the edge between `a` and `b` at a level, the step
`pruneConnections` performs for each dropped neighbor. -/
def delEdge (s : HNSWState) (a b : ℕ) (l : ℕ) : HNSWState :=
  nodeUpdState (nodeUpdState s a (fun nd => connDelAt nd l b)) b
    (fun nd => connDelAt nd l a)

/-- Source `pruneConnections`: when a node's degree at a level exceeds `M`,
keep its `M` closest live neighbors and drop the rest symmetrically. -/
def pruneConnections (s : HNSWState) (nid : ℕ) (lvl : ℕ) : HNSWState :=
  match nodesGet s.nodes nid with
  | none => s
  | some node =>
    let conns := connAt node lvl
    if conns.length ≤ s.M then s
    else
      let candidates := conns.filterMap (fun cid =>
        (nodesGet s.nodes cid).map
          (fun cn => Cand.mk cid (distance node.vector cn.vector)))
      let keep := ((sortCands candidates).take s.M).map (fun c => c.id)
      conns.foldl
        (fun st cid => if cid ∈ keep then st else delEdge st nid cid lvl) s

/-- Source ann.ts add, one selected neighbor: connect both directions, then
prune the neighbor when its degree exceeds `M`. -/
def hnswInsertNeighbor (s : HNSWState) (id : ℕ) (lvl : ℕ) (nbId : ℕ) :
    HNSWState :=
  let s1 := nodeUpdState s id (fun nd => connAddAt nd lvl nbId)
  match nodesGet s1.nodes nbId with
  | none => s1
  | some _ =>
    let s2 := nodeUpdState s1 nbId (fun nd => connAddAt nd lvl id)
    match nodesGet s2.nodes nbId with
    | some nb2 =>
      if s2.M < (connAt nb2 lvl).length then pruneConnections s2 nbId lvl
      else s2
    | none => s2

/-- Source ann.ts add, one level of the insertion loop. -/
def hnswLevelStep (s : HNSWState) (id : ℕ) (vector : Vec) (lvl : ℕ)
    (cur : ℕ) : HNSWState × ℕ :=
  let neighbors := searchLayer s vector cur s.efConstruction lvl
  let selected := selectNeighbors neighbors s.M
  let s' := selected.foldl (fun st nb => hnswInsertNeighbor st id lvl nb.id) s
  let cur' := match neighbors with
    | [] => cur
    | n0 :: _ => n0.id
  (s', cur')

/-- Source ann.ts add, levels `min(level, maxLevel)` down to `0`; the first
argument counts the remaining levels, the level being processed is `cnt`. -/
def hnswLevels (id : ℕ) (vector : Vec) : ℕ → HNSWState → ℕ → HNSWState
  | 0, s, _ => s
  | cnt + 1, s, cur =>
    let r := hnswLevelStep s id vector cnt cur
    hnswLevels id vector cnt r.1 r.2

/-- Source ann.ts add/search greedy descent: with `cnt` levels remaining
above `toLvl`, greedy-search at level `toLvl + cnt` and continue downward,
stopping at `toLvl + 1`. -/
def hnswDescend (s : HNSWState) (q : Vec) (toLvl : ℕ) :
    ℕ → ℕ → ℕ
  | 0, cur => cur
  | cnt + 1, cur =>
    hnswDescend s q toLvl cnt (greedySearchFn s q cur (toLvl + cnt + 1))

/-- Source `HNSWIndex.add`. The dimension check precedes every mutation, so
the error case leaves the index untouched. -/
def hnswAdd (s : HNSWState) (id : ℕ) (vector : Vec) (level : ℕ) :
    Except String HNSWState :=
  if vector.length ≠ s.dimensions then
    .error "Vector dimension mismatch"
  else
    let node : HNSWNode := ⟨id, vector, emptyConnections level, level⟩
    let s1 := { s with nodes := nodesSet s.nodes id node }
    match s.entryPoint with
    | none => .ok { s1 with entryPoint := some id, maxLevel := (level : ℤ) }
    | some ep =>
      let cur0 := hnswDescend s1 vector level (s1.maxLevel - (level : ℤ)).toNat ep
      let cnt := (min (level : ℤ) s1.maxLevel + 1).toNat
      let s2 := hnswLevels id vector cnt s1 cur0
      let s3 := if s1.maxLevel < (level : ℤ)
        then { s2 with entryPoint := some id, maxLevel := (level : ℤ) }
        else s2
      .ok s3

/-- Source `HNSWIndex.remove`. -/
def hnswRemove (s : HNSWState) (id : ℕ) : Bool × HNSWState :=
  match nodesGet s.nodes id with
  | none => (false, s)
  | some node =>
    let s1 := node.connections.foldl
      (fun st (p : ℕ × List ℕ) =>
        p.2.foldl
          (fun st2 nbId => nodeUpdState st2 nbId (fun nd => connDelAt nd p.1 id))
          st)
      s
    let s2 := { s1 with nodes := nodesDel s1.nodes id }
    if s2.entryPoint = some id then
      if s2.nodes.isEmpty then
        (true, { s2 with entryPoint := none, maxLevel := -1 })
      else
        let best := s2.nodes.foldl
          (fun (acc : ℤ × Option ℕ) p =>
            if acc.1 < (p.2.level : ℤ) then ((p.2.level : ℤ), some p.1) else acc)
          (-1, none)
        (true, { s2 with entryPoint := best.2, maxLevel := best.1 })
    else (true, s2)

/-- Source `HNSWIndex.search`: no dimension check; greedy-descend to level 1,
layer-search at level 0 with `efSearch`, return the `k` closest. -/
def hnswSearch (s : HNSWState) (query : Vec) (k : ℕ) : List Cand :=
  match s.entryPoint with
  | none => []
  | some ep =>
    let cur := hnswDescend s query 0 s.maxLevel.toNat ep
    let candidates := searchLayer s query cur s.efSearch 0
    candidates.take k

inductive HOp where
  | add (id : ℕ) (v : Vec) (level : ℕ)
  | remove (id : ℕ)

/-- A thrown `add` (dimension mismatch) leaves the state unchanged. -/
def applyHOp (s : HNSWState) : HOp → HNSWState
  | .add i v l =>
    match hnswAdd s i v l with
    | .ok s' => s'
    | .error _ => s
  | .remove i => (hnswRemove s i).2

def mkHNSW (dims M efC efS : ℕ) : HNSWState := ⟨dims, M, efC, efS, [], none, -1⟩

def runHNSW (s0 : HNSWState) (ops : List HOp) : HNSWState :=
  ops.foldl applyHOp s0

/-- C9 (amended): `HNSWIndex.add` raises an error precisely when the vector's
length differs from the index dimension, and the failed operation leaves the
index unchanged; `HNSWIndex.search` performs no dimension check at all (see
the counterexample theorem). -/
theorem hnswAdd_dim_check (s : HNSWState) (id : ℕ) (v : Vec) (level : ℕ) :
    ((∃ e, hnswAdd s id v level = Except.error e) ↔ v.length ≠ s.dimensions) ∧
    (v.length ≠ s.dimensions → applyHOp s (HOp.add id v level) = s) := by
  have herr : v.length ≠ s.dimensions →
      hnswAdd s id v level = Except.error "Vector dimension mismatch" := by
    intro h
    simp [hnswAdd, h]
  have hok : v.length = s.dimensions →
      ∃ s', hnswAdd s id v level = Except.ok s' := by
    intro h
    simp only [hnswAdd, h, ne_eq, not_true_eq_false, if_false]
    cases s.entryPoint <;> exact ⟨_, rfl⟩
  refine ⟨⟨?_, ?_⟩, ?_⟩
  · rintro ⟨e, he⟩ hd
    obtain ⟨s', hs'⟩ := hok hd
    rw [hs'] at he
    exact Except.noConfusion he
  · intro hd
    exact ⟨_, herr hd⟩
  · intro hd
    simp [applyHOp, herr hd]

/-- C9 amended-theorem witness: a length-1 vector on a dimension-2 index is
rejected without mutating the index. -/
theorem hnswAdd_dim_check_witness :
    (∃ e, hnswAdd (mkHNSW 2 16 200 50) 0 [1] 0 = Except.error e) ∧
    applyHOp (mkHNSW 2 16 200 50) (HOp.add 0 [1] 0) = mkHNSW 2 16 200 50 :=
  ⟨(hnswAdd_dim_check (mkHNSW 2 16 200 50) 0 [1] 0).1.mpr (by decide),
   (hnswAdd_dim_check (mkHNSW 2 16 200 50) 0 [1] 0).2 (by decide)⟩

/-- C9 counterexample: searching a dimension-2 index with a length-1 query
raises no error; `search` simply computes with the mismatched vector and
returns a normal result, contradicting the claim that a search dimension
mismatch is a raised usage error. -/
theorem hnswSearch_no_dim_check_cex :
    hnswSearch (applyHOp (mkHNSW 2 16 200 50) (HOp.add 0 [1, 0] 0)) [1] 1
      = [⟨0, 0⟩] := by
  have hadd : applyHOp (mkHNSW 2 16 200 50) (HOp.add 0 [1, 0] 0)
      = ⟨2, 16, 200, 50, [(0, ⟨0, [1, 0], [(0, [])], 0⟩)], some 0, 0⟩ := by
    simp [applyHOp, hnswAdd, mkHNSW, nodesSet, nodesGet, emptyConnections]
  rw [hadd]
  norm_num [hnswSearch, hnswDescend, searchLayer, searchLayerLoop,
    connCountAt, connAt, connGet, sortCands, List.insertionSort,
    List.orderedInsert, nodesGet, distance, dot]

/-! Invariant development for the HNSW graph (claim C3). `stConnAt` reads a
node's connection set at a level directly from the state; every graph
mutation in the source is a composition of `nodeUpdState` with `connAddAt` or
`connDelAt`, plus node insertion and deletion, so the proofs go through
characterizations of those primitives. -/

def stConnAt (s : HNSWState) (u : ℕ) (l : ℕ) : List ℕ :=
  match nodesGet s.nodes u with
  | some nd => connAt nd l
  | none => []

theorem nodesGet_nodeUpd (m : List (ℕ × HNSWNode)) (k : ℕ)
    (f : HNSWNode → HNSWNode) (u : ℕ) :
    nodesGet (nodeUpd m k f) u
      = if u = k then (nodesGet m u).map f else nodesGet m u := by
  induction m with
  | nil => by_cases h : u = k <;> simp [nodeUpd, nodesGet, h]
  | cons p ps ih =>
    by_cases hpu : p.1 = u
    · by_cases hpk : p.1 = k
      · have huk : u = k := by rw [← hpu, hpk]
        simp [nodeUpd, nodesGet, hpk, hpu, huk]
      · have huk : ¬u = k := fun hh => hpk (by rw [hpu, hh])
        simp [nodeUpd, nodesGet, hpk, hpu, huk]
    · have h1 : nodesGet (nodeUpd (p :: ps) k f) u = nodesGet (nodeUpd ps k f) u := by
        by_cases hpk : p.1 = k
        · have hku : ¬k = u := fun hh => hpu (hpk.trans hh)
          simp [nodeUpd, nodesGet, hpk, hpu, hku]
        · simp [nodeUpd, nodesGet, hpk, hpu]
      have h2 : nodesGet (p :: ps) u = nodesGet ps u := by simp [nodesGet, hpu]
      rw [h1, h2, ih]

theorem keys_nodeUpd (m : List (ℕ × HNSWNode)) (k : ℕ) (f : HNSWNode → HNSWNode) :
    (nodeUpd m k f).map (fun p => p.1) = m.map (fun p => p.1) := by
  induction m with
  | nil => rfl
  | cons p ps ih =>
    by_cases h : p.1 = k <;> simp [nodeUpd, h] <;> simpa [nodeUpd] using ih

theorem nodesGet_nodeUpdState (s : HNSWState) (k : ℕ) (f : HNSWNode → HNSWNode)
    (u : ℕ) :
    nodesGet (nodeUpdState s k f).nodes u
      = if u = k then (nodesGet s.nodes u).map f else nodesGet s.nodes u :=
  nodesGet_nodeUpd s.nodes k f u

theorem isSome_nodesGet_nodeUpdState (s : HNSWState) (k : ℕ)
    (f : HNSWNode → HNSWNode) (u : ℕ) :
    (nodesGet (nodeUpdState s k f).nodes u).isSome
      = (nodesGet s.nodes u).isSome := by
  rw [nodesGet_nodeUpdState]
  by_cases h : u = k <;> simp [h]

theorem connGet_map_const (c : List (ℕ × List ℕ)) (l : ℕ) (v : List ℕ)
    (l' : ℕ) :
    connGet (c.map (fun p => if p.1 = l then (l, v) else p)) l'
      = if l' = l then (connGet c l).map (fun _ => v) else connGet c l' := by
  induction c with
  | nil => by_cases h : l' = l <;> simp [connGet, h]
  | cons p ps ih =>
    by_cases hpl : p.1 = l
    · by_cases hl : l' = l
      · subst hl
        simp [connGet, hpl]
      · have hpu : ¬p.1 = l' := by rw [hpl]; exact fun hh => hl hh.symm
        have hll : ¬l = l' := fun hh => hl hh.symm
        simp [connGet, hpl, hpu, hl, hll, ih]
    · by_cases hpu : p.1 = l'
      · have hl : ¬l' = l := by rw [← hpu]; exact fun hh => hpl (hpu ▸ hh)
        simp [connGet, hpl, hpu, hl]
      · simp [connGet, hpl, hpu, ih]

theorem connGet_map_fn (c : List (ℕ × List ℕ)) (l : ℕ) (g : List ℕ → List ℕ)
    (l' : ℕ) :
    connGet (c.map (fun p => if p.1 = l then (p.1, g p.2) else p)) l'
      = if l' = l then (connGet c l).map g else connGet c l' := by
  induction c with
  | nil => by_cases h : l' = l <;> simp [connGet, h]
  | cons p ps ih =>
    by_cases hpl : p.1 = l
    · by_cases hl : l' = l
      · subst hl
        simp [connGet, hpl]
      · have hpu : ¬p.1 = l' := by rw [hpl]; exact fun hh => hl hh.symm
        have hll : ¬l = l' := fun hh => hl hh.symm
        simp [connGet, hpl, hpu, hl, hll, ih]
    · by_cases hpu : p.1 = l'
      · have hl : ¬l' = l := by rw [← hpu]; exact fun hh => hpl (hpu ▸ hh)
        simp [connGet, hpl, hpu, hl]
      · simp [connGet, hpl, hpu, ih]

theorem connGet_append_single (c : List (ℕ × List ℕ)) (l : ℕ) (v : List ℕ)
    (l' : ℕ) :
    connGet (c ++ [(l, v)]) l'
      = match connGet c l' with
        | some x => some x
        | none => if l = l' then some v else none := by
  induction c with
  | nil => simp [connGet]
  | cons p ps ih =>
    by_cases hpu : p.1 = l'
    · simp [connGet, hpu]
    · simpa [connGet, hpu] using ih

theorem connGet_isSome_iff (c : List (ℕ × List ℕ)) (l : ℕ) :
    (connGet c l).isSome ↔ l ∈ c.map (fun p => p.1) := by
  induction c with
  | nil => simp [connGet]
  | cons p ps ih =>
    by_cases h : p.1 = l
    · simp [connGet, h]
    · have h' : ¬l = p.1 := fun hh => h hh.symm
      simp [connGet, h, h', ih]

theorem connGet_connSetLevel (c : List (ℕ × List ℕ)) (l : ℕ) (v : List ℕ)
    (l' : ℕ) :
    connGet (connSetLevel c l v) l' = if l' = l then some v else connGet c l' := by
  by_cases h : (connGet c l).isSome
  · rw [connSetLevel, if_pos h, connGet_map_const]
    by_cases hl : l' = l
    · subst hl
      rw [if_pos rfl, if_pos rfl]
      rcases ho : connGet c l' with _ | w
      · rw [ho] at h; simp at h
      · simp
    · rw [if_neg hl, if_neg hl]
  · rw [connSetLevel, if_neg h, connGet_append_single]
    by_cases hl : l' = l
    · subst hl
      rcases ho : connGet c l' with _ | w
      · simp
      · rw [ho] at h; simp at h
    · rcases ho : connGet c l' with _ | w
      · simp [if_neg (fun hh : l = l' => hl hh.symm), hl]
      · simp [hl]

theorem connAt_connAddAt (nd : HNSWNode) (l x : ℕ) (l' : ℕ) :
    connAt (connAddAt nd l x) l'
      = if l' = l then setAdd x (connAt nd l) else connAt nd l' := by
  show (connGet (connSetLevel nd.connections l (setAdd x (connAt nd l))) l').getD [] = _
  rw [connGet_connSetLevel]
  by_cases hl : l' = l
  · simp [hl]
  · simp only [if_neg hl]
    rfl

theorem connAt_connDelAt (nd : HNSWNode) (l x : ℕ) (l' : ℕ) :
    connAt (connDelAt nd l x) l'
      = if l' = l then setDel x (connAt nd l) else connAt nd l' := by
  show (connGet (nd.connections.map fun p => if p.1 = l then (p.1, setDel x p.2) else p) l').getD [] = _
  rw [connGet_map_fn]
  by_cases hl : l' = l
  · simp only [if_pos hl, hl]
    rcases ho : connGet nd.connections l with _ | w
    · simp [connAt, ho, setDel]
    · simp [connAt, ho]
  · simp only [if_neg hl]
    rfl

theorem connAddAt_id (nd : HNSWNode) (l x : ℕ) : (connAddAt nd l x).id = nd.id := rfl
theorem connDelAt_id (nd : HNSWNode) (l x : ℕ) : (connDelAt nd l x).id = nd.id := rfl

/-- Well-formedness of a stored node: its `id` field matches its key, its
per-level connection map has no duplicate level keys, and each connection
set is duplicate-free (it models a JS `Set`). -/
def NodeWF (k : ℕ) (nd : HNSWNode) : Prop :=
  nd.id = k ∧ (nd.connections.map (fun p => p.1)).Nodup ∧
    ∀ e ∈ nd.connections, e.2.Nodup

/-- Well-formedness of the node table: distinct keys, each node well formed. -/
def WFState (s : HNSWState) : Prop :=
  (s.nodes.map (fun p => p.1)).Nodup ∧ ∀ p ∈ s.nodes, NodeWF p.1 p.2

/-- Every edge points to a live node and is reciprocated at its level. -/
def Reciprocal (s : HNSWState) : Prop :=
  ∀ u l v, v ∈ stConnAt s u l →
    (nodesGet s.nodes v).isSome ∧ u ∈ stConnAt s v l

/-- No neighbor set at any level exceeds `M`. -/
def DegreeBound (s : HNSWState) : Prop :=
  ∀ u l, (stConnAt s u l).length ≤ s.M

def HNSWInv (s : HNSWState) : Prop :=
  WFState s ∧ Reciprocal s ∧ DegreeBound s

theorem mem_setDel (x y : ℕ) (s : List ℕ) : x ∈ setDel y s ↔ x ∈ s ∧ x ≠ y := by
  simp [setDel]

theorem mem_setAdd (x y : ℕ) (s : List ℕ) : x ∈ setAdd y s ↔ x ∈ s ∨ x = y := by
  by_cases h : y ∈ s
  · simp only [setAdd, if_pos h]
    constructor
    · exact fun hx => Or.inl hx
    · rintro (hx | rfl)
      · exact hx
      · exact h
  · simp [setAdd, h]

theorem length_setAdd_le (x : ℕ) (s : List ℕ) :
    (setAdd x s).length ≤ s.length + 1 := by
  by_cases h : x ∈ s <;> simp [setAdd, h]

theorem nodup_setAdd (x : ℕ) {s : List ℕ} (h : s.Nodup) : (setAdd x s).Nodup := by
  by_cases hx : x ∈ s
  · simpa [setAdd, hx] using h
  · simp [setAdd, hx, List.nodup_append, h]

theorem nodup_setDel (x : ℕ) {s : List ℕ} (h : s.Nodup) : (setDel x s).Nodup :=
  h.filter _

theorem nodesGet_isSome_iff (m : List (ℕ × HNSWNode)) (k : ℕ) :
    (nodesGet m k).isSome ↔ k ∈ m.map (fun p => p.1) := by
  induction m with
  | nil => simp [nodesGet]
  | cons p ps ih =>
    by_cases h : p.1 = k
    · simp [nodesGet, h]
    · have h' : ¬k = p.1 := fun hh => h hh.symm
      simp [nodesGet, h, h', ih]

theorem connGet_eq_some_mem {c : List (ℕ × List ℕ)} {l : ℕ} {w : List ℕ}
    (h : connGet c l = some w) : ∃ p ∈ c, p.1 = l ∧ p.2 = w := by
  induction c with
  | nil => simp [connGet] at h
  | cons p ps ih =>
    rw [show connGet (p :: ps) l = if p.1 = l then some p.2 else connGet ps l from rfl] at h
    by_cases hp : p.1 = l
    · rw [if_pos hp] at h
      refine ⟨p, List.mem_cons_self p ps, hp, ?_⟩
      injection h
    · rw [if_neg hp] at h
      obtain ⟨q, hq, h1, h2⟩ := ih h
      exact ⟨q, List.mem_cons_of_mem p hq, h1, h2⟩

theorem nodup_connAt {k : ℕ} {nd : HNSWNode} (h : NodeWF k nd) (l : ℕ) :
    (connAt nd l).Nodup := by
  rcases ho : connGet nd.connections l with _ | w
  · simp [connAt, ho]
  · obtain ⟨p, hp, _, hpw⟩ := connGet_eq_some_mem ho
    have hv := h.2.2 p hp
    rw [hpw] at hv
    simpa [connAt, ho] using hv

theorem keys_map_const (c : List (ℕ × List ℕ)) (l : ℕ) (v : List ℕ) :
    ((c.map (fun p => if p.1 = l then (l, v) else p)).map (fun p => p.1))
      = c.map (fun p => p.1) := by
  induction c with
  | nil => rfl
  | cons p ps ih => by_cases hp : p.1 = l <;> simp [hp, ih]

theorem keys_map_fn (c : List (ℕ × List ℕ)) (l : ℕ) (g : List ℕ → List ℕ) :
    ((c.map (fun p => if p.1 = l then (p.1, g p.2) else p)).map (fun p => p.1))
      = c.map (fun p => p.1) := by
  induction c with
  | nil => rfl
  | cons p ps ih => by_cases hp : p.1 = l <;> simp [hp, ih]

theorem nodeWF_connAddAt {k : ℕ} {nd : HNSWNode} (l x : ℕ) (h : NodeWF k nd) :
    NodeWF k (connAddAt nd l x) := by
  obtain ⟨hid, hkeys, hvals⟩ := h
  refine ⟨hid, ?_, ?_⟩
  · show ((connSetLevel nd.connections l (setAdd x (connAt nd l))).map
      (fun p => p.1)).Nodup
    rw [connSetLevel]
    by_cases hp : (connGet nd.connections l).isSome
    · rw [if_pos hp, keys_map_const]
      exact hkeys
    · rw [if_neg hp]
      have hnl : l ∉ nd.connections.map (fun p => p.1) := by
        rw [← connGet_isSome_iff]
        simpa using hp
      simp [List.nodup_append, hkeys, hnl]
  · intro e he
    show e.2.Nodup
    rw [show (connAddAt nd l x).connections
        = connSetLevel nd.connections l (setAdd x (connAt nd l)) from rfl,
      connSetLevel] at he
    by_cases hp : (connGet nd.connections l).isSome
    · rw [if_pos hp] at he
      obtain ⟨q, hq, hqe⟩ := List.mem_map.mp he
      by_cases hql : q.1 = l
      · rw [if_pos hql] at hqe
        rw [← hqe]
        exact nodup_setAdd x (nodup_connAt ⟨hid, hkeys, hvals⟩ l)
      · rw [if_neg hql] at hqe
        rw [← hqe]
        exact hvals q hq
    · rw [if_neg hp] at he
      rcases List.mem_append.mp he with he | he
      · exact hvals e he
      · rw [List.mem_singleton.mp he]
        exact nodup_setAdd x (nodup_connAt ⟨hid, hkeys, hvals⟩ l)

theorem nodeWF_connDelAt {k : ℕ} {nd : HNSWNode} (l x : ℕ) (h : NodeWF k nd) :
    NodeWF k (connDelAt nd l x) := by
  obtain ⟨hid, hkeys, hvals⟩ := h
  refine ⟨hid, ?_, ?_⟩
  · show ((nd.connections.map (fun p => if p.1 = l then (p.1, setDel x p.2) else p)).map
      (fun p => p.1)).Nodup
    rw [keys_map_fn]
    exact hkeys
  · intro e he
    show e.2.Nodup
    rw [show (connDelAt nd l x).connections
        = nd.connections.map (fun p => if p.1 = l then (p.1, setDel x p.2) else p) from rfl] at he
    obtain ⟨q, hq, hqe⟩ := List.mem_map.mp he
    by_cases hql : q.1 = l
    · rw [if_pos hql] at hqe
      rw [← hqe]
      exact nodup_setDel x (hvals q hq)
    · rw [if_neg hql] at hqe
      rw [← hqe]
      exact hvals q hq

theorem wfState_nodeUpdState {s : HNSWState} {k : ℕ} {f : HNSWNode → HNSWNode}
    (hw : WFState s) (hf : ∀ nd, NodeWF k nd → NodeWF k (f nd)) :
    WFState (nodeUpdState s k f) := by
  constructor
  · rw [show (nodeUpdState s k f).nodes = nodeUpd s.nodes k f from rfl, keys_nodeUpd]
    exact hw.1
  · intro p hp
    rw [show (nodeUpdState s k f).nodes = nodeUpd s.nodes k f from rfl] at hp
    obtain ⟨q, hq, hqp⟩ := List.mem_map.mp hp
    by_cases hqk : q.1 = k
    · rw [if_pos hqk] at hqp
      rw [← hqp]
      show NodeWF q.1 (f q.2)
      rw [hqk]
      exact hf q.2 (hqk ▸ hw.2 q hq)
    · rw [if_neg hqk] at hqp
      rw [← hqp]
      exact hw.2 q hq

theorem stConnAt_nodeUpdState_del (s : HNSWState) (k l x u l' : ℕ) :
    stConnAt (nodeUpdState s k (fun nd => connDelAt nd l x)) u l'
      = if u = k ∧ l' = l then setDel x (stConnAt s u l') else stConnAt s u l' := by
  show (match nodesGet (nodeUpdState s k fun nd => connDelAt nd l x).nodes u with
    | some nd => connAt nd l' | none => ([] : List ℕ)) = _
  rw [nodesGet_nodeUpdState]
  by_cases hu : u = k
  · subst hu
    rw [if_pos rfl]
    rcases ho : nodesGet s.nodes u with _ | nd
    · by_cases hl : l' = l <;> simp [stConnAt, ho, hl, setDel]
    · by_cases hl : l' = l <;>
        simp [stConnAt, ho, hl, connAt_connDelAt]
  · rw [if_neg hu, if_neg (fun hh => hu hh.1)]
    rfl

theorem stConnAt_nodeUpdState_add (s : HNSWState) (k l x u l' : ℕ) :
    stConnAt (nodeUpdState s k (fun nd => connAddAt nd l x)) u l'
      = if u = k ∧ l' = l ∧ (nodesGet s.nodes k).isSome
        then setAdd x (stConnAt s u l') else stConnAt s u l' := by
  show (match nodesGet (nodeUpdState s k fun nd => connAddAt nd l x).nodes u with
    | some nd => connAt nd l' | none => ([] : List ℕ)) = _
  rw [nodesGet_nodeUpdState]
  by_cases hu : u = k
  · subst hu
    rw [if_pos rfl]
    rcases ho : nodesGet s.nodes u with _ | nd
    · rw [if_neg (by simp [ho])]
      simp [stConnAt, ho]
    · have hs : (nodesGet s.nodes u).isSome := by rw [ho]; rfl
      by_cases hl : l' = l <;>
        simp [stConnAt, ho, hl, hs, connAt_connAddAt]
  · rw [if_neg hu, if_neg (fun hh => hu hh.1)]
    rfl

theorem keys_delEdge (s : HNSWState) (a b l : ℕ) :
    (delEdge s a b l).nodes.map (fun p => p.1) = s.nodes.map (fun p => p.1) := by
  show (nodeUpd (nodeUpd s.nodes a (fun nd => connDelAt nd l b)) b
      (fun nd => connDelAt nd l a)).map (fun p => p.1) = _
  rw [keys_nodeUpd, keys_nodeUpd]

theorem isSome_nodesGet_delEdge (s : HNSWState) (a b l u : ℕ) :
    (nodesGet (delEdge s a b l).nodes u).isSome = (nodesGet s.nodes u).isSome := by
  show (nodesGet (nodeUpdState (nodeUpdState s a _) b _).nodes u).isSome = _
  rw [isSome_nodesGet_nodeUpdState, isSome_nodesGet_nodeUpdState]

theorem delEdge_M (s : HNSWState) (a b l : ℕ) : (delEdge s a b l).M = s.M := rfl

theorem wfState_delEdge {s : HNSWState} (a b l : ℕ) (hw : WFState s) :
    WFState (delEdge s a b l) :=
  wfState_nodeUpdState (wfState_nodeUpdState hw (fun _ => nodeWF_connDelAt l b))
    (fun _ => nodeWF_connDelAt l a)

theorem mem_stConnAt_delEdge (s : HNSWState) (a b l u l' x : ℕ) :
    x ∈ stConnAt (delEdge s a b l) u l'
      ↔ x ∈ stConnAt s u l' ∧ ¬(l' = l ∧ u = a ∧ x = b)
          ∧ ¬(l' = l ∧ u = b ∧ x = a) := by
  show x ∈ stConnAt (nodeUpdState (nodeUpdState s a fun nd => connDelAt nd l b) b
      fun nd => connDelAt nd l a) u l' ↔ _
  rw [stConnAt_nodeUpdState_del, stConnAt_nodeUpdState_del]
  by_cases hl : l' = l
  · by_cases hua : u = a
    · by_cases hub : u = b
      · have hab : a = b := hua.symm.trans hub
        subst hab
        simp [hl, hua, mem_setDel]
      · have hab : ¬a = b := fun hh => hub (hua.trans hh)
        simp [hl, hua, hub, hab, mem_setDel]
    · by_cases hub : u = b
      · have hba : ¬b = a := fun hh => hua (hub.trans hh)
        simp [hl, hua, hub, hba, mem_setDel]
      · simp [hl, hua, hub, mem_setDel]
  · simp [hl]

theorem reciprocal_delEdge {s : HNSWState} (a b l : ℕ) (h : Reciprocal s) :
    Reciprocal (delEdge s a b l) := by
  intro u l' v hv
  rw [mem_stConnAt_delEdge] at hv
  obtain ⟨hv0, hn1, hn2⟩ := hv
  obtain ⟨hlive, hrec⟩ := h u l' v hv0
  refine ⟨?_, ?_⟩
  · rw [isSome_nodesGet_delEdge]
    exact hlive
  · rw [mem_stConnAt_delEdge]
    refine ⟨hrec, ?_, ?_⟩
    · rintro ⟨h1, h2, h3⟩
      exact hn2 ⟨h1, h3, h2⟩
    · rintro ⟨h1, h2, h3⟩
      exact hn1 ⟨h1, h3, h2⟩

theorem stConnAt_delEdge_other (s : HNSWState) (a b l : ℕ) (u l' : ℕ)
    (h : l' ≠ l) : stConnAt (delEdge s a b l) u l' = stConnAt s u l' := by
  show stConnAt (nodeUpdState (nodeUpdState s a fun nd => connDelAt nd l b) b
      fun nd => connDelAt nd l a) u l' = _
  rw [stConnAt_nodeUpdState_del, stConnAt_nodeUpdState_del,
    if_neg (fun hh => h hh.2), if_neg (fun hh => h hh.2)]

theorem filter_form_trans {l1 l2 l3 : List ℕ}
    (h1 : ∃ p, l2 = l1.filter p) (h2 : ∃ p, l3 = l2.filter p) :
    ∃ p, l3 = l1.filter p := by
  obtain ⟨p1, rfl⟩ := h1
  obtain ⟨p2, rfl⟩ := h2
  exact ⟨fun a => p2 a && p1 a, by rw [List.filter_filter]⟩

theorem stConnAt_nodeUpdState_del_filter (s : HNSWState) (k l x u l' : ℕ) :
    ∃ p : ℕ → Bool,
      stConnAt (nodeUpdState s k (fun nd => connDelAt nd l x)) u l'
        = (stConnAt s u l').filter p := by
  rw [stConnAt_nodeUpdState_del]
  by_cases h : u = k ∧ l' = l
  · rw [if_pos h]
    exact ⟨fun y => y ≠ x, rfl⟩
  · rw [if_neg h]
    exact ⟨fun _ => true, by simp⟩

theorem stConnAt_delEdge_filter (s : HNSWState) (a b l u l' : ℕ) :
    ∃ p : ℕ → Bool,
      stConnAt (delEdge s a b l) u l' = (stConnAt s u l').filter p :=
  filter_form_trans (stConnAt_nodeUpdState_del_filter s a l b u l')
    (stConnAt_nodeUpdState_del_filter _ b l a u l')

theorem nodesGet_eq_some_mem {m : List (ℕ × HNSWNode)} {k : ℕ} {nd : HNSWNode}
    (h : nodesGet m k = some nd) : ∃ p ∈ m, p.1 = k ∧ p.2 = nd := by
  induction m with
  | nil => simp [nodesGet] at h
  | cons p ps ih =>
    rw [show nodesGet (p :: ps) k = if p.1 = k then some p.2 else nodesGet ps k from rfl] at h
    by_cases hp : p.1 = k
    · rw [if_pos hp] at h
      refine ⟨p, List.mem_cons_self p ps, hp, ?_⟩
      injection h
    · rw [if_neg hp] at h
      obtain ⟨q, hq, h1, h2⟩ := ih h
      exact ⟨q, List.mem_cons_of_mem p hq, h1, h2⟩

theorem nodup_stConnAt {s : HNSWState} (hw : WFState s) (u l : ℕ) :
    (stConnAt s u l).Nodup := by
  rcases ho : nodesGet s.nodes u with _ | nd
  · simp [stConnAt, ho]
  · obtain ⟨p, hp, hpk, hpn⟩ := nodesGet_eq_some_mem ho
    have hwf : NodeWF p.1 p.2 := hw.2 p hp
    rw [hpn] at hwf
    have := nodup_connAt hwf l
    simpa [stConnAt, ho] using this

theorem length_le_of_nodup_subset {l keep : List ℕ} (h : l.Nodup)
    (hsub : ∀ x ∈ l, x ∈ keep) : l.length ≤ keep.length := by
  calc l.length = l.toFinset.card := (List.toFinset_card_of_nodup h).symm
    _ ≤ keep.toFinset.card := by
        apply Finset.card_le_card
        intro x hx
        rw [List.mem_toFinset] at hx ⊢
        exact hsub x hx
    _ ≤ keep.length := keep.toFinset_card_le

/-- The set of ids `pruneConnections` retains: the `M` closest live neighbors. -/
def pruneKeep (s : HNSWState) (node : HNSWNode) (lvl : ℕ) : List ℕ :=
  ((sortCands ((connAt node lvl).filterMap (fun cid =>
      (nodesGet s.nodes cid).map
        (fun cn => Cand.mk cid (distance node.vector cn.vector))))).take s.M).map
    (fun c => c.id)

/-- One step of the prune loop: drop the edge unless the neighbor is kept. -/
def pruneStep (nid lvl : ℕ) (keep : List ℕ) (st : HNSWState) (cid : ℕ) :
    HNSWState :=
  if cid ∈ keep then st else delEdge st nid cid lvl

theorem length_pruneKeep_le (s : HNSWState) (node : HNSWNode) (lvl : ℕ) :
    (pruneKeep s node lvl).length ≤ s.M := by
  rw [pruneKeep, List.length_map, List.length_take]
  exact Nat.min_le_left _ _

theorem pruneFold_pres (nid lvl : ℕ) (keep : List ℕ) (cs : List ℕ) :
    ∀ (s : HNSWState), WFState s → Reciprocal s →
      WFState (cs.foldl (pruneStep nid lvl keep) s) ∧
      Reciprocal (cs.foldl (pruneStep nid lvl keep) s) ∧
      (cs.foldl (pruneStep nid lvl keep) s).nodes.map (fun p => p.1)
        = s.nodes.map (fun p => p.1) ∧
      (cs.foldl (pruneStep nid lvl keep) s).M = s.M ∧
      (∀ u l, ∃ p : ℕ → Bool,
        stConnAt (cs.foldl (pruneStep nid lvl keep) s) u l
          = (stConnAt s u l).filter p) ∧
      (∀ u l, l ≠ lvl →
        stConnAt (cs.foldl (pruneStep nid lvl keep) s) u l = stConnAt s u l) := by
  induction cs with
  | nil =>
    intro s hw hr
    exact ⟨hw, hr, rfl, rfl, fun u l => ⟨fun _ => true, by simp⟩, fun u l _ => rfl⟩
  | cons cid cs ih =>
    intro s hw hr
    rw [List.foldl_cons]
    by_cases hc : cid ∈ keep
    · rw [show pruneStep nid lvl keep s cid = s from by rw [pruneStep, if_pos hc]]
      exact ih s hw hr
    · rw [show pruneStep nid lvl keep s cid = delEdge s nid cid lvl from by
        rw [pruneStep, if_neg hc]]
      obtain ⟨hw', hr', hkeys, hM, hfil, hoth⟩ :=
        ih (delEdge s nid cid lvl) (wfState_delEdge nid cid lvl hw)
          (reciprocal_delEdge nid cid lvl hr)
      refine ⟨hw', hr', ?_, ?_, ?_, ?_⟩
      · rw [hkeys, keys_delEdge]
      · rw [hM, delEdge_M]
      · intro u l
        exact filter_form_trans (stConnAt_delEdge_filter s nid cid lvl u l) (hfil u l)
      · intro u l hl
        rw [hoth u l hl, stConnAt_delEdge_other s nid cid lvl u l hl]

theorem pruneFold_keep (nid lvl : ℕ) (keep : List ℕ) (cs : List ℕ) :
    ∀ (s : HNSWState),
      (∀ x ∈ stConnAt s nid lvl, x ∈ keep ∨ x ∈ cs) →
      ∀ x ∈ stConnAt (cs.foldl (pruneStep nid lvl keep) s) nid lvl, x ∈ keep := by
  induction cs with
  | nil =>
    intro s h x hx
    rcases h x hx with h' | h'
    · exact h'
    · simp at h'
  | cons cid cs ih =>
    intro s h
    rw [List.foldl_cons]
    by_cases hc : cid ∈ keep
    · rw [show pruneStep nid lvl keep s cid = s from by rw [pruneStep, if_pos hc]]
      apply ih
      intro x hx
      rcases h x hx with h' | h'
      · exact Or.inl h'
      · rcases List.mem_cons.mp h' with h'' | h''
        · exact Or.inl (h'' ▸ hc)
        · exact Or.inr h''
    · rw [show pruneStep nid lvl keep s cid = delEdge s nid cid lvl from by
        rw [pruneStep, if_neg hc]]
      apply ih
      intro x hx
      rw [mem_stConnAt_delEdge] at hx
      obtain ⟨hx0, hn1, _⟩ := hx
      have hxc : x ≠ cid := fun hh => hn1 ⟨rfl, rfl, hh⟩
      rcases h x hx0 with h' | h'
      · exact Or.inl h'
      · rcases List.mem_cons.mp h' with h'' | h''
        · exact absurd h'' hxc
        · exact Or.inr h''

theorem prune_spec {s : HNSWState} (nid lvl : ℕ)
    (hw : WFState s) (hr : Reciprocal s) :
    WFState (pruneConnections s nid lvl) ∧
    Reciprocal (pruneConnections s nid lvl) ∧
    (pruneConnections s nid lvl).nodes.map (fun p => p.1)
      = s.nodes.map (fun p => p.1) ∧
    (pruneConnections s nid lvl).M = s.M ∧
    (∀ u l, ∃ p : ℕ → Bool,
      stConnAt (pruneConnections s nid lvl) u l = (stConnAt s u l).filter p) ∧
    (∀ u l, l ≠ lvl →
      stConnAt (pruneConnections s nid lvl) u l = stConnAt s u l) ∧
    (stConnAt (pruneConnections s nid lvl) nid lvl).length ≤ s.M := by
  rcases ho : nodesGet s.nodes nid with _ | node
  · have hA : pruneConnections s nid lvl = s := by
      simp only [pruneConnections, ho]
    rw [hA]
    exact ⟨hw, hr, rfl, rfl, fun u l => ⟨fun _ => true, by simp⟩,
      fun u l _ => rfl, by simp [stConnAt, ho]⟩
  · by_cases hlen : (connAt node lvl).length ≤ s.M
    · have hA : pruneConnections s nid lvl = s := by
        simp only [pruneConnections, ho, if_pos hlen]
      rw [hA]
      refine ⟨hw, hr, rfl, rfl, fun u l => ⟨fun _ => true, by simp⟩,
        fun u l _ => rfl, ?_⟩
      simpa [stConnAt, ho] using hlen
    · have hA : pruneConnections s nid lvl
          = (connAt node lvl).foldl
              (pruneStep nid lvl (pruneKeep s node lvl)) s := by
        simp only [pruneConnections, ho, if_neg hlen, pruneStep, pruneKeep]
        rfl
      rw [hA]
      obtain ⟨hw', hr', hkeys, hM, hfil, hoth⟩ :=
        pruneFold_pres nid lvl (pruneKeep s node lvl) (connAt node lvl) s hw hr
      have hinit : ∀ x ∈ stConnAt s nid lvl,
          x ∈ pruneKeep s node lvl ∨ x ∈ connAt node lvl := by
        intro x hx
        right
        simpa [stConnAt, ho] using hx
      have hsub := pruneFold_keep nid lvl (pruneKeep s node lvl)
        (connAt node lvl) s hinit
      have hbound := length_le_of_nodup_subset (nodup_stConnAt hw' nid lvl) hsub
      exact ⟨hw', hr', hkeys, hM, hfil, hoth,
        hbound.trans (length_pruneKeep_le s node lvl)⟩

theorem setAdd_idem (x : ℕ) (s : List ℕ) : setAdd x (setAdd x s) = setAdd x s := by
  have hx : x ∈ setAdd x s := (mem_setAdd x x s).mpr (Or.inr rfl)
  show (if x ∈ setAdd x s then setAdd x s else setAdd x s ++ [x]) = setAdd x s
  rw [if_pos hx]

/-- The state after the two mutual `add` calls of ann.ts add's neighbor loop:
`id` gains `nbId` and `nbId` gains `id`, both at `lvl`. -/
def addPair (s : HNSWState) (id lvl nbId : ℕ) : HNSWState :=
  nodeUpdState (nodeUpdState s id fun nd => connAddAt nd lvl nbId) nbId
    fun nd => connAddAt nd lvl id

theorem isSome_nodesGet_addPair (s : HNSWState) (id lvl nbId u : ℕ) :
    (nodesGet (addPair s id lvl nbId).nodes u).isSome
      = (nodesGet s.nodes u).isSome := by
  unfold addPair
  rw [isSome_nodesGet_nodeUpdState, isSome_nodesGet_nodeUpdState]

theorem keys_addPair (s : HNSWState) (id lvl nbId : ℕ) :
    (addPair s id lvl nbId).nodes.map (fun p => p.1)
      = s.nodes.map (fun p => p.1) := by
  show (nodeUpd (nodeUpd s.nodes id (fun nd => connAddAt nd lvl nbId)) nbId
      (fun nd => connAddAt nd lvl id)).map (fun p => p.1) = _
  rw [keys_nodeUpd, keys_nodeUpd]

theorem wfState_addPair {s : HNSWState} (id lvl nbId : ℕ) (hw : WFState s) :
    WFState (addPair s id lvl nbId) :=
  wfState_nodeUpdState
    (wfState_nodeUpdState hw (fun _ h => nodeWF_connAddAt lvl nbId h))
    (fun _ h => nodeWF_connAddAt lvl id h)

theorem stConnAt_addPair_eq (s : HNSWState) (id lvl nbId : ℕ)
    (hid : (nodesGet s.nodes id).isSome) (hnb : (nodesGet s.nodes nbId).isSome)
    (u l' : ℕ) :
    stConnAt (addPair s id lvl nbId) u l'
      = if u = nbId ∧ l' = lvl
        then setAdd id (if u = id ∧ l' = lvl
          then setAdd nbId (stConnAt s u l') else stConnAt s u l')
        else if u = id ∧ l' = lvl
          then setAdd nbId (stConnAt s u l') else stConnAt s u l' := by
  have hnb1 : (nodesGet (nodeUpdState s id
      fun nd => connAddAt nd lvl nbId).nodes nbId).isSome := by
    rw [isSome_nodesGet_nodeUpdState]
    exact hnb
  unfold addPair
  rw [stConnAt_nodeUpdState_add, stConnAt_nodeUpdState_add]
  by_cases h1 : u = nbId ∧ l' = lvl
  · rw [if_pos ⟨h1.1, h1.2, hnb1⟩, if_pos h1]
    by_cases h2 : u = id ∧ l' = lvl
    · rw [if_pos ⟨h2.1, h2.2, hid⟩, if_pos h2]
    · rw [if_neg (fun hh => h2 ⟨hh.1, hh.2.1⟩), if_neg h2]
  · rw [if_neg (fun hh => h1 ⟨hh.1, hh.2.1⟩), if_neg h1]
    by_cases h2 : u = id ∧ l' = lvl
    · rw [if_pos ⟨h2.1, h2.2, hid⟩, if_pos h2]
    · rw [if_neg (fun hh => h2 ⟨hh.1, hh.2.1⟩), if_neg h2]

theorem mem_stConnAt_addPair (s : HNSWState) (id lvl nbId : ℕ)
    (hid : (nodesGet s.nodes id).isSome) (hnb : (nodesGet s.nodes nbId).isSome)
    (u l' x : ℕ) :
    x ∈ stConnAt (addPair s id lvl nbId) u l'
      ↔ x ∈ stConnAt s u l'
        ∨ (l' = lvl ∧ ((u = id ∧ x = nbId) ∨ (u = nbId ∧ x = id))) := by
  rw [stConnAt_addPair_eq s id lvl nbId hid hnb]
  by_cases hl : l' = lvl
  · by_cases hui : u = id
    · by_cases hun : u = nbId
      · have hab : id = nbId := hui.symm.trans hun
        subst hab
        simp [hl, hui, mem_setAdd, setAdd_idem]
      · have hab : ¬id = nbId := fun hh => hun (hui.trans hh)
        simp [hl, hui, hun, hab, mem_setAdd]
    · by_cases hun : u = nbId
      · have hba : ¬nbId = id := fun hh => hui (hun.trans hh)
        simp [hl, hui, hun, hba, mem_setAdd]
      · simp [hl, hui, hun]
  · simp [hl]

theorem reciprocal_addPair {s : HNSWState} {id lvl nbId : ℕ}
    (hid : (nodesGet s.nodes id).isSome) (hnb : (nodesGet s.nodes nbId).isSome)
    (hr : Reciprocal s) : Reciprocal (addPair s id lvl nbId) := by
  intro u l v hv
  rw [mem_stConnAt_addPair s id lvl nbId hid hnb] at hv
  rcases hv with hv | ⟨hl, hc⟩
  · obtain ⟨hlv, hrec⟩ := hr u l v hv
    refine ⟨?_, ?_⟩
    · rw [isSome_nodesGet_addPair]
      exact hlv
    · rw [mem_stConnAt_addPair s id lvl nbId hid hnb]
      exact Or.inl hrec
  · rcases hc with ⟨hu, hx⟩ | ⟨hu, hx⟩
    · subst hu
      subst hx
      refine ⟨?_, ?_⟩
      · rw [isSome_nodesGet_addPair]
        exact hnb
      · rw [mem_stConnAt_addPair s u lvl v hid hnb]
        exact Or.inr ⟨hl, Or.inr ⟨rfl, rfl⟩⟩
    · subst hu
      subst hx
      refine ⟨?_, ?_⟩
      · rw [isSome_nodesGet_addPair]
        exact hid
      · rw [mem_stConnAt_addPair s v lvl u hid hnb]
        exact Or.inr ⟨hl, Or.inl ⟨rfl, rfl⟩⟩

theorem insertNeighbor_spec {s : HNSWState} {id lvl nbId : ℕ}
    (hw : WFState s) (hr : Reciprocal s)
    (hid : (nodesGet s.nodes id).isSome)
    (hnb : (nodesGet s.nodes nbId).isSome)
    (hdegX : ∀ u l, ¬(u = id ∧ l = lvl) → (stConnAt s u l).length ≤ s.M) :
    WFState (hnswInsertNeighbor s id lvl nbId) ∧
    Reciprocal (hnswInsertNeighbor s id lvl nbId) ∧
    (hnswInsertNeighbor s id lvl nbId).nodes.map (fun p => p.1)
      = s.nodes.map (fun p => p.1) ∧
    (hnswInsertNeighbor s id lvl nbId).M = s.M ∧
    (∀ u l, ¬(u = id ∧ l = lvl) →
      (stConnAt (hnswInsertNeighbor s id lvl nbId) u l).length ≤ s.M) ∧
    (stConnAt (hnswInsertNeighbor s id lvl nbId) id lvl).length
      ≤ (stConnAt s id lvl).length + 1 ∧
    (∀ u l, l ≠ lvl →
      stConnAt (hnswInsertNeighbor s id lvl nbId) u l = stConnAt s u l) := by
  have hnb1 : (nodesGet (nodeUpdState s id
      fun nd => connAddAt nd lvl nbId).nodes nbId).isSome := by
    rw [isSome_nodesGet_nodeUpdState]
    exact hnb
  obtain ⟨nb1, hnb1e⟩ := Option.isSome_iff_exists.mp hnb1
  have hnb2 : (nodesGet (addPair s id lvl nbId).nodes nbId).isSome := by
    rw [isSome_nodesGet_addPair]
    exact hnb
  obtain ⟨nb2, hnb2e⟩ := Option.isSome_iff_exists.mp hnb2
  have hEq : hnswInsertNeighbor s id lvl nbId
      = if (addPair s id lvl nbId).M < (connAt nb2 lvl).length
        then pruneConnections (addPair s id lvl nbId) nbId lvl
        else addPair s id lvl nbId := by
    have hnb2e' : nodesGet (nodeUpdState (nodeUpdState s id
        fun nd => connAddAt nd lvl nbId) nbId
        fun nd => connAddAt nd lvl id).nodes nbId = some nb2 := hnb2e
    simp only [hnswInsertNeighbor, hnb1e, hnb2e']
    rfl
  have hwAP : WFState (addPair s id lvl nbId) := wfState_addPair id lvl nbId hw
  have hrAP : Reciprocal (addPair s id lvl nbId) := reciprocal_addPair hid hnb hr
  have hkAP := keys_addPair s id lvl nbId
  have hMAP : (addPair s id lvl nbId).M = s.M := rfl
  have hAPeq := stConnAt_addPair_eq s id lvl nbId hid hnb
  have hAPlen_id : (stConnAt (addPair s id lvl nbId) id lvl).length
      ≤ (stConnAt s id lvl).length + 1 := by
    rw [hAPeq id lvl]
    by_cases hin : id = nbId
    · rw [if_pos ⟨hin, rfl⟩, if_pos ⟨rfl, rfl⟩, ← hin, setAdd_idem]
      exact length_setAdd_le id _
    · rw [if_neg (fun hh => hin hh.1), if_pos ⟨rfl, rfl⟩]
      exact length_setAdd_le nbId _
  have hAPother : ∀ u l', l' ≠ lvl →
      stConnAt (addPair s id lvl nbId) u l' = stConnAt s u l' := by
    intro u l' hl
    rw [hAPeq u l', if_neg (fun hh => hl hh.2), if_neg (fun hh => hl hh.2)]
  have hAPunch : ∀ u l', ¬(u = id ∧ l' = lvl) → ¬(u = nbId ∧ l' = lvl) →
      stConnAt (addPair s id lvl nbId) u l' = stConnAt s u l' := by
    intro u l' h2 h1
    rw [hAPeq u l', if_neg h1, if_neg h2]
  have hAPnb : stConnAt (addPair s id lvl nbId) nbId lvl = connAt nb2 lvl := by
    show (match nodesGet (addPair s id lvl nbId).nodes nbId with
      | some nd => connAt nd lvl | none => ([] : List ℕ)) = _
    rw [hnb2e]
  rw [hEq]
  by_cases htr : (addPair s id lvl nbId).M < (connAt nb2 lvl).length
  · rw [if_pos htr]
    obtain ⟨hw', hr', hkeys, hM, hfil, hoth, hbnd⟩ := prune_spec nbId lvl hwAP hrAP
    refine ⟨hw', hr', ?_, ?_, ?_, ?_, ?_⟩
    · rw [hkeys, hkAP]
    · rw [hM, hMAP]
    · intro u l hul
      by_cases hun : u = nbId ∧ l = lvl
      · obtain ⟨rfl, rfl⟩ := hun
        exact le_trans hbnd (le_of_eq hMAP)
      · obtain ⟨p, hp⟩ := hfil u l
        rw [hp, hAPunch u l hul hun]
        exact le_trans (List.length_filter_le _ _) (hdegX u l hul)
    · obtain ⟨p, hp⟩ := hfil id lvl
      rw [hp]
      exact le_trans (List.length_filter_le _ _) hAPlen_id
    · intro u l hl
      rw [hoth u l hl, hAPother u l hl]
  · rw [if_neg htr]
    push_neg at htr
    refine ⟨hwAP, hrAP, hkAP, hMAP, ?_, hAPlen_id, hAPother⟩
    intro u l hul
    by_cases hun : u = nbId ∧ l = lvl
    · obtain ⟨rfl, rfl⟩ := hun
      rw [hAPnb]
      exact le_trans htr (le_of_eq hMAP)
    · rw [hAPunch u l hul hun]
      exact hdegX u l hul

theorem mem_sortCands {c : Cand} {cs : List Cand} (h : c ∈ sortCands cs) :
    c ∈ cs :=
  (List.perm_insertionSort _ cs).mem_iff.mp h

theorem mem_dropLast {c : Cand} {cs : List Cand} (h : c ∈ cs.dropLast) : c ∈ cs :=
  (List.dropLast_sublist cs).subset h

/-- The body of `searchLayer`'s neighbor loop, named for reuse in proofs. -/
def slStep (s : HNSWState) (q : Vec) (ef : ℕ) (furthest : Cand)
    (st : SLState) (nId : ℕ) : SLState :=
  if nId ∈ st.visited then st
  else
    let visited' := st.visited ++ [nId]
    match nodesGet s.nodes nId with
    | none => { st with visited := visited' }
    | some nb =>
      let d := distance q nb.vector
      if st.results.length < ef ∨ d < furthest.distance then
        let results1 := st.results ++ [⟨nId, d⟩]
        let results2 :=
          if ef < results1.length then (sortCands results1).dropLast
          else results1
        { visited := visited'
          candidates := st.candidates ++ [⟨nId, d⟩]
          results := results2 }
      else { st with visited := visited' }

theorem slStep_visited (s : HNSWState) (q : Vec) (ef : ℕ) (furthest : Cand)
    (st : SLState) (nId : ℕ) (hv : nId ∈ st.visited) :
    slStep s q ef furthest st nId = st := by
  unfold slStep
  rw [if_pos hv]

theorem slStep_none (s : HNSWState) (q : Vec) (ef : ℕ) (furthest : Cand)
    (st : SLState) (nId : ℕ) (hv : nId ∉ st.visited)
    (ho : nodesGet s.nodes nId = none) :
    slStep s q ef furthest st nId = { st with visited := st.visited ++ [nId] } := by
  unfold slStep
  rw [if_neg hv, ho]

theorem slStep_some (s : HNSWState) (q : Vec) (ef : ℕ) (furthest : Cand)
    (st : SLState) (nId : ℕ) (nb : HNSWNode) (hv : nId ∉ st.visited)
    (ho : nodesGet s.nodes nId = some nb) :
    slStep s q ef furthest st nId
      = if st.results.length < ef ∨ distance q nb.vector < furthest.distance then
          { visited := st.visited ++ [nId]
            candidates := st.candidates ++ [⟨nId, distance q nb.vector⟩]
            results :=
              if ef < (st.results ++ [(⟨nId, distance q nb.vector⟩ : Cand)]).length
              then (sortCands (st.results
                ++ [(⟨nId, distance q nb.vector⟩ : Cand)])).dropLast
              else st.results ++ [(⟨nId, distance q nb.vector⟩ : Cand)] }
        else { st with visited := st.visited ++ [nId] } := by
  unfold slStep
  rw [if_neg hv, ho]

theorem slStep_live (s : HNSWState) (q : Vec) (ef : ℕ) (furthest : Cand)
    (st : SLState) (nId : ℕ)
    (hc : ∀ c ∈ st.candidates, (nodesGet s.nodes c.id).isSome)
    (hr : ∀ c ∈ st.results, (nodesGet s.nodes c.id).isSome) :
    (∀ c ∈ (slStep s q ef furthest st nId).candidates,
      (nodesGet s.nodes c.id).isSome) ∧
    (∀ c ∈ (slStep s q ef furthest st nId).results,
      (nodesGet s.nodes c.id).isSome) := by
  by_cases hv : nId ∈ st.visited
  · rw [slStep_visited s q ef furthest st nId hv]
    exact ⟨hc, hr⟩
  · rcases ho : nodesGet s.nodes nId with _ | nb
    · rw [slStep_none s q ef furthest st nId hv ho]
      exact ⟨hc, hr⟩
    · rw [slStep_some s q ef furthest st nId nb hv ho]
      by_cases hcond : st.results.length < ef
        ∨ distance q nb.vector < furthest.distance
      · rw [if_pos hcond]
        constructor
        · intro c hm
          rcases List.mem_append.mp hm with hm | hm
          · exact hc c hm
          · rw [List.mem_singleton.mp hm]
            simp [ho]
        · intro c hm
          have hm' : c ∈ (if ef < (st.results
                ++ [(⟨nId, distance q nb.vector⟩ : Cand)]).length
              then (sortCands (st.results
                ++ [(⟨nId, distance q nb.vector⟩ : Cand)])).dropLast
              else st.results ++ [(⟨nId, distance q nb.vector⟩ : Cand)]) := hm
          have hsub : c ∈ st.results ++ [(⟨nId, distance q nb.vector⟩ : Cand)] := by
            by_cases hlen : ef < (st.results
                ++ [(⟨nId, distance q nb.vector⟩ : Cand)]).length
            · rw [if_pos hlen] at hm'
              exact mem_sortCands (mem_dropLast hm')
            · rw [if_neg hlen] at hm'
              exact hm'
          rcases List.mem_append.mp hsub with h2 | h2
          · exact hr c h2
          · rw [List.mem_singleton.mp h2]
            simp [ho]
      · rw [if_neg hcond]
        exact ⟨hc, hr⟩

theorem slfold_live (s : HNSWState) (q : Vec) (ef : ℕ) (furthest : Cand)
    (conns : List ℕ) :
    ∀ (st : SLState),
      (∀ c ∈ st.candidates, (nodesGet s.nodes c.id).isSome) →
      (∀ c ∈ st.results, (nodesGet s.nodes c.id).isSome) →
      (∀ c ∈ (conns.foldl (slStep s q ef furthest) st).candidates,
        (nodesGet s.nodes c.id).isSome) ∧
      (∀ c ∈ (conns.foldl (slStep s q ef furthest) st).results,
        (nodesGet s.nodes c.id).isSome) := by
  induction conns with
  | nil =>
    intro st hc hr
    exact ⟨hc, hr⟩
  | cons nId conns ih =>
    intro st hc hr
    rw [List.foldl_cons]
    obtain ⟨hc', hr'⟩ := slStep_live s q ef furthest st nId hc hr
    exact ih _ hc' hr'

theorem searchLayerLoop_live (s : HNSWState) (q : Vec) (ef lvl : ℕ) :
    ∀ (fuel : ℕ) (visited : List ℕ) (candidates results : List Cand),
      (∀ c ∈ candidates, (nodesGet s.nodes c.id).isSome) →
      (∀ c ∈ results, (nodesGet s.nodes c.id).isSome) →
      ∀ c ∈ searchLayerLoop s q ef lvl fuel visited candidates results,
        (nodesGet s.nodes c.id).isSome := by
  intro fuel
  induction fuel with
  | zero =>
    intro visited candidates results _ hr c hm
    exact hr c (mem_sortCands hm)
  | succ fuel ih =>
    intro visited candidates results hc hr c hm
    simp only [searchLayerLoop] at hm
    rcases hsc : sortCands candidates with _ | ⟨current, candRest⟩
    · simp only [hsc] at hm
      exact hr c (mem_sortCands hm)
    · simp only [hsc] at hm
      by_cases hcond : ((sortCands results).getLastD ⟨0, 0⟩).distance
          < current.distance ∧ ef ≤ results.length
      · rw [if_pos hcond] at hm
        exact hr c (mem_sortCands hm)
      · rw [if_neg hcond] at hm
        have hcr : ∀ c' ∈ candRest, (nodesGet s.nodes c'.id).isSome := by
          intro c' h
          apply hc
          apply mem_sortCands
          rw [hsc]
          exact List.mem_cons_of_mem current h
        obtain ⟨hc2, hr2⟩ := slfold_live s q ef
          ((sortCands results).getLastD ⟨0, 0⟩)
          (match nodesGet s.nodes current.id with
            | some nd => connAt nd lvl
            | none => [])
          ⟨visited, candRest, results⟩ hcr hr
        exact ih _ _ _ hc2 hr2 c hm

theorem searchLayer_live (s : HNSWState) (q : Vec) (entry ef lvl : ℕ) :
    ∀ c ∈ searchLayer s q entry ef lvl, (nodesGet s.nodes c.id).isSome := by
  intro c hm
  rcases ho : nodesGet s.nodes entry with _ | nd
  · have hE : searchLayer s q entry ef lvl = [] := by
      simp only [searchLayer, ho]
    rw [hE] at hm
    simp at hm
  · have hE : searchLayer s q entry ef lvl
        = searchLayerLoop s q ef lvl (connCountAt s lvl + 2) [entry]
            [⟨entry, distance q nd.vector⟩] [⟨entry, distance q nd.vector⟩] := by
      simp only [searchLayer, ho]
    rw [hE] at hm
    refine searchLayerLoop_live s q ef lvl _ _ _ _ ?_ ?_ c hm
    · intro c' h
      rw [List.mem_singleton.mp h]
      simp [ho]
    · intro c' h
      rw [List.mem_singleton.mp h]
      simp [ho]

theorem isSome_congr_keys {m1 m2 : List (ℕ × HNSWNode)} (k : ℕ)
    (h : m1.map (fun p => p.1) = m2.map (fun p => p.1)) :
    (nodesGet m1 k).isSome ↔ (nodesGet m2 k).isSome := by
  rw [nodesGet_isSome_iff, nodesGet_isSome_iff, h]

theorem length_selectNeighbors_le (cands : List Cand) (M : ℕ) :
    (selectNeighbors cands M).length ≤ M := by
  unfold selectNeighbors
  rw [List.length_take]
  exact Nat.min_le_left _ _

theorem insertNbFold_spec (id lvl : ℕ) (sel : List Cand) :
    ∀ (s : HNSWState),
      WFState s → Reciprocal s →
      (∀ u l, ¬(u = id ∧ l = lvl) → (stConnAt s u l).length ≤ s.M) →
      (∀ c ∈ sel, (nodesGet s.nodes c.id).isSome) →
      (nodesGet s.nodes id).isSome →
      WFState (sel.foldl (fun st nb => hnswInsertNeighbor st id lvl nb.id) s) ∧
      Reciprocal (sel.foldl (fun st nb => hnswInsertNeighbor st id lvl nb.id) s) ∧
      (sel.foldl (fun st nb => hnswInsertNeighbor st id lvl nb.id) s).nodes.map
          (fun p => p.1) = s.nodes.map (fun p => p.1) ∧
      (sel.foldl (fun st nb => hnswInsertNeighbor st id lvl nb.id) s).M = s.M ∧
      (∀ u l, ¬(u = id ∧ l = lvl) →
        (stConnAt (sel.foldl (fun st nb => hnswInsertNeighbor st id lvl nb.id) s)
          u l).length ≤ s.M) ∧
      (stConnAt (sel.foldl (fun st nb => hnswInsertNeighbor st id lvl nb.id) s)
          id lvl).length ≤ (stConnAt s id lvl).length + sel.length ∧
      (∀ u l, l ≠ lvl →
        stConnAt (sel.foldl (fun st nb => hnswInsertNeighbor st id lvl nb.id) s) u l
          = stConnAt s u l) := by
  induction sel with
  | nil =>
    intro s hw hr hdegX hlive hid
    exact ⟨hw, hr, rfl, rfl, hdegX, by simp, fun u l _ => rfl⟩
  | cons nb sel ih =>
    intro s hw hr hdegX hlive hid
    rw [List.foldl_cons]
    obtain ⟨hw1, hr1, hk1, hM1, hdeg1, hlen1, hoth1⟩ :=
      insertNeighbor_spec hw hr hid (hlive nb (List.mem_cons_self nb sel)) hdegX
    have hid1 : (nodesGet (hnswInsertNeighbor s id lvl nb.id).nodes id).isSome :=
      (isSome_congr_keys id hk1).mpr hid
    have hlive1 : ∀ c ∈ sel,
        (nodesGet (hnswInsertNeighbor s id lvl nb.id).nodes c.id).isSome :=
      fun c h => (isSome_congr_keys c.id hk1).mpr
        (hlive c (List.mem_cons_of_mem nb h))
    have hdegX1 : ∀ u l, ¬(u = id ∧ l = lvl) →
        (stConnAt (hnswInsertNeighbor s id lvl nb.id) u l).length
          ≤ (hnswInsertNeighbor s id lvl nb.id).M := by
      intro u l hul
      rw [hM1]
      exact hdeg1 u l hul
    obtain ⟨hw', hr', hk', hM', hdeg', hlen', hoth'⟩ :=
      ih (hnswInsertNeighbor s id lvl nb.id) hw1 hr1 hdegX1 hlive1 hid1
    refine ⟨hw', hr', hk'.trans hk1, hM'.trans hM1, ?_, ?_, ?_⟩
    · intro u l hul
      have h1 := hdeg' u l hul
      rw [hM1] at h1
      exact h1
    · refine le_trans hlen' ?_
      rw [List.length_cons]
      omega
    · intro u l hl
      rw [hoth' u l hl, hoth1 u l hl]

theorem hnswLevelStep_inv (s : HNSWState) (id : ℕ) (vector : Vec) (lvl cur : ℕ)
    (hw : WFState s) (hr : Reciprocal s) (hd : DegreeBound s)
    (hid : (nodesGet s.nodes id).isSome)
    (hemp : ∀ l, l ≤ lvl → stConnAt s id l = []) :
    WFState (hnswLevelStep s id vector lvl cur).1 ∧
    Reciprocal (hnswLevelStep s id vector lvl cur).1 ∧
    DegreeBound (hnswLevelStep s id vector lvl cur).1 ∧
    (hnswLevelStep s id vector lvl cur).1.nodes.map (fun p => p.1)
      = s.nodes.map (fun p => p.1) ∧
    (hnswLevelStep s id vector lvl cur).1.M = s.M ∧
    (nodesGet (hnswLevelStep s id vector lvl cur).1.nodes id).isSome ∧
    (∀ l, l < lvl → stConnAt (hnswLevelStep s id vector lvl cur).1 id l = []) := by
  have hEq : (hnswLevelStep s id vector lvl cur).1
      = (selectNeighbors (searchLayer s vector cur s.efConstruction lvl)
          s.M).foldl (fun st nb => hnswInsertNeighbor st id lvl nb.id) s := rfl
  rw [hEq]
  have hlive : ∀ c ∈ selectNeighbors (searchLayer s vector cur s.efConstruction lvl)
      s.M, (nodesGet s.nodes c.id).isSome := by
    intro c h
    apply searchLayer_live s vector cur s.efConstruction lvl
    exact mem_sortCands ((List.take_sublist _ _).subset h)
  obtain ⟨hw', hr', hk', hM', hdeg', hlen', hoth'⟩ :=
    insertNbFold_spec id lvl
      (selectNeighbors (searchLayer s vector cur s.efConstruction lvl) s.M) s
      hw hr (fun u l _ => hd u l) hlive hid
  refine ⟨hw', hr', ?_, hk', hM', (isSome_congr_keys id hk').mpr hid, ?_⟩
  · intro u l
    rw [hM']
    by_cases hul : u = id ∧ l = lvl
    · rw [hul.1, hul.2]
      refine le_trans hlen' ?_
      rw [hemp lvl (le_refl lvl)]
      simpa using length_selectNeighbors_le
        (searchLayer s vector cur s.efConstruction lvl) s.M
    · exact hdeg' u l hul
  · intro l hl
    rw [hoth' id l (Nat.ne_of_lt hl), hemp l (le_of_lt hl)]

theorem hnswLevels_inv (id : ℕ) (vector : Vec) :
    ∀ (cnt : ℕ) (s : HNSWState) (cur : ℕ),
      WFState s → Reciprocal s → DegreeBound s →
      (nodesGet s.nodes id).isSome →
      (∀ l, l < cnt → stConnAt s id l = []) →
      WFState (hnswLevels id vector cnt s cur) ∧
      Reciprocal (hnswLevels id vector cnt s cur) ∧
      DegreeBound (hnswLevels id vector cnt s cur) ∧
      (hnswLevels id vector cnt s cur).nodes.map (fun p => p.1)
        = s.nodes.map (fun p => p.1) ∧
      (hnswLevels id vector cnt s cur).M = s.M := by
  intro cnt
  induction cnt with
  | zero =>
    intro s cur hw hr hd _ _
    exact ⟨hw, hr, hd, rfl, rfl⟩
  | succ cnt ih =>
    intro s cur hw hr hd hid hemp
    have hEq : hnswLevels id vector (cnt + 1) s cur
        = hnswLevels id vector cnt (hnswLevelStep s id vector cnt cur).1
            (hnswLevelStep s id vector cnt cur).2 := rfl
    rw [hEq]
    obtain ⟨hw1, hr1, hd1, hk1, hM1, hid1, hemp1⟩ :=
      hnswLevelStep_inv s id vector cnt cur hw hr hd hid
        (fun l hl => hemp l (Nat.lt_succ_of_le hl))
    obtain ⟨hw', hr', hd', hk', hM'⟩ :=
      ih (hnswLevelStep s id vector cnt cur).1
        (hnswLevelStep s id vector cnt cur).2 hw1 hr1 hd1 hid1 hemp1
    exact ⟨hw', hr', hd', hk'.trans hk1, hM'.trans hM1⟩

theorem emptyConnections_keys_le (n : ℕ) :
    ∀ l ∈ (emptyConnections n).map (fun p => p.1), l ≤ n := by
  induction n with
  | zero =>
    intro l h
    simp [emptyConnections] at h
    omega
  | succ n ih =>
    intro l h
    rw [show emptyConnections (n + 1) = emptyConnections n ++ [(n + 1, [])] from rfl,
      List.map_append] at h
    rcases List.mem_append.mp h with h | h
    · exact le_trans (ih l h) (Nat.le_succ n)
    · simp at h
      omega

theorem emptyConnections_keys_nodup (n : ℕ) :
    ((emptyConnections n).map (fun p => p.1)).Nodup := by
  induction n with
  | zero => simp [emptyConnections]
  | succ n ih =>
    rw [show emptyConnections (n + 1) = emptyConnections n ++ [(n + 1, [])] from rfl,
      List.map_append]
    refine List.nodup_append.mpr ⟨ih, List.nodup_singleton _, ?_⟩
    intro a ha hb
    simp at hb
    have := emptyConnections_keys_le n a ha
    omega

theorem emptyConnections_vals (n : ℕ) :
    ∀ e ∈ emptyConnections n, e.2 = ([] : List ℕ) := by
  induction n with
  | zero =>
    intro e he
    simp [emptyConnections] at he
    rw [he]
  | succ n ih =>
    intro e he
    rw [show emptyConnections (n + 1) = emptyConnections n ++ [(n + 1, [])] from rfl] at he
    rcases List.mem_append.mp he with h | h
    · exact ih e h
    · rw [List.mem_singleton.mp h]

theorem connAt_emptyConnections (n l : ℕ) :
    (connGet (emptyConnections n) l).getD [] = ([] : List ℕ) := by
  rcases ho : connGet (emptyConnections n) l with _ | w
  · rfl
  · obtain ⟨p, hp, _, hpw⟩ := connGet_eq_some_mem ho
    have hv := emptyConnections_vals n p hp
    rw [hpw] at hv
    simp [hv]

theorem nodesGet_append_single (m : List (ℕ × HNSWNode)) (k : ℕ) (nd : HNSWNode)
    (u : ℕ) :
    nodesGet (m ++ [(k, nd)]) u
      = match nodesGet m u with
        | some x => some x
        | none => if k = u then some nd else none := by
  induction m with
  | nil => simp [nodesGet]
  | cons p ps ih =>
    by_cases hpu : p.1 = u
    · simp [nodesGet, hpu]
    · simpa [nodesGet, hpu] using ih

theorem hnswAdd_base_inv {s : HNSWState} {id : ℕ} {v : Vec} {level : ℕ}
    (hw : WFState s) (hr : Reciprocal s) (hd : DegreeBound s)
    (hfresh : nodesGet s.nodes id = none) :
    WFState { s with nodes := nodesSet s.nodes id ⟨id, v, emptyConnections level, level⟩ } ∧
    Reciprocal { s with nodes := nodesSet s.nodes id ⟨id, v, emptyConnections level, level⟩ } ∧
    DegreeBound { s with nodes := nodesSet s.nodes id ⟨id, v, emptyConnections level, level⟩ } ∧
    ({ s with nodes := nodesSet s.nodes id ⟨id, v, emptyConnections level, level⟩ } : HNSWState).nodes.map (fun p => p.1)
      = s.nodes.map (fun p => p.1) ++ [id] ∧
    (nodesGet ({ s with nodes := nodesSet s.nodes id ⟨id, v, emptyConnections level, level⟩ } : HNSWState).nodes id).isSome ∧
    (∀ l, stConnAt { s with nodes := nodesSet s.nodes id ⟨id, v, emptyConnections level, level⟩ } id l = []) := by
  have hTnodes : ({ s with nodes := nodesSet s.nodes id ⟨id, v, emptyConnections level, level⟩ } : HNSWState).nodes
      = s.nodes ++ [(id, ⟨id, v, emptyConnections level, level⟩)] := by
    show nodesSet s.nodes id ⟨id, v, emptyConnections level, level⟩ = _
    unfold nodesSet
    rw [hfresh]
    simp
  have hidmem : id ∉ s.nodes.map (fun p => p.1) := by
    rw [← nodesGet_isSome_iff, hfresh]
    simp
  have hget : ∀ u, u ≠ id →
      nodesGet ({ s with nodes := nodesSet s.nodes id ⟨id, v, emptyConnections level, level⟩ } : HNSWState).nodes u
        = nodesGet s.nodes u := by
    intro u hu
    rcases h : nodesGet s.nodes u with _ | x
    · rw [hTnodes, nodesGet_append_single]
      simp only [h]
      rw [if_neg (fun hh : id = u => hu hh.symm)]
    · rw [hTnodes, nodesGet_append_single]
      simp only [h]
  have hgetid : nodesGet ({ s with nodes := nodesSet s.nodes id ⟨id, v, emptyConnections level, level⟩ } : HNSWState).nodes id
      = some ⟨id, v, emptyConnections level, level⟩ := by
    rw [hTnodes, nodesGet_append_single]
    simp only [hfresh]
    simp
  have hkeys : ({ s with nodes := nodesSet s.nodes id ⟨id, v, emptyConnections level, level⟩ } : HNSWState).nodes.map (fun p => p.1)
      = s.nodes.map (fun p => p.1) ++ [id] := by
    rw [hTnodes, List.map_append]
    rfl
  have hwT : WFState { s with nodes := nodesSet s.nodes id ⟨id, v, emptyConnections level, level⟩ } := by
    constructor
    · rw [hkeys]
      refine List.nodup_append.mpr ⟨hw.1, List.nodup_singleton _, ?_⟩
      intro a ha hb
      rw [List.mem_singleton] at hb
      rw [hb] at ha
      exact hidmem ha
    · intro p hp
      rw [hTnodes] at hp
      rcases List.mem_append.mp hp with h | h
      · exact hw.2 p h
      · rw [List.mem_singleton.mp h]
        exact ⟨rfl, emptyConnections_keys_nodup level, fun e he => by
          rw [emptyConnections_vals level e he]
          exact List.nodup_nil⟩
  have hconn : ∀ l, stConnAt { s with nodes := nodesSet s.nodes id ⟨id, v, emptyConnections level, level⟩ } id l = [] := by
    intro l
    show (match nodesGet ({ s with nodes := nodesSet s.nodes id ⟨id, v, emptyConnections level, level⟩ } : HNSWState).nodes id with
      | some nd => connAt nd l | none => ([] : List ℕ)) = []
    rw [hgetid]
    exact connAt_emptyConnections level l
  have hconn_other : ∀ u l, u ≠ id →
      stConnAt { s with nodes := nodesSet s.nodes id ⟨id, v, emptyConnections level, level⟩ } u l
        = stConnAt s u l := by
    intro u l hu
    show (match nodesGet ({ s with nodes := nodesSet s.nodes id ⟨id, v, emptyConnections level, level⟩ } : HNSWState).nodes u with
      | some nd => connAt nd l | none => ([] : List ℕ))
      = (match nodesGet s.nodes u with
      | some nd => connAt nd l | none => ([] : List ℕ))
    rw [hget u hu]
  refine ⟨hwT, ?_, ?_, hkeys, by rw [hgetid]; rfl, hconn⟩
  · intro u l w hv
    by_cases hu : u = id
    · rw [hu, hconn l] at hv
      simp at hv
    · rw [hconn_other u l hu] at hv
      obtain ⟨hlv, hrec⟩ := hr u l w hv
      have hwid : w ≠ id := by
        intro hh
        rw [hh, hfresh] at hlv
        simp at hlv
      refine ⟨?_, ?_⟩
      · rw [hget w hwid]
        exact hlv
      · rw [hconn_other w l hwid]
        exact hrec
  · intro u l
    show (stConnAt { s with nodes := nodesSet s.nodes id ⟨id, v, emptyConnections level, level⟩ } u l).length ≤ s.M
    by_cases hu : u = id
    · rw [hu, hconn l]
      simp
    · rw [hconn_other u l hu]
      exact hd u l

theorem hnswAdd_inv {s : HNSWState} {id : ℕ} {v : Vec} {level : ℕ}
    {sf : HNSWState}
    (hw : WFState s) (hr : Reciprocal s) (hd : DegreeBound s)
    (hfresh : nodesGet s.nodes id = none)
    (hok : hnswAdd s id v level = Except.ok sf) :
    WFState sf ∧ Reciprocal sf ∧ DegreeBound sf ∧
    sf.nodes.map (fun p => p.1) = s.nodes.map (fun p => p.1) ++ [id] ∧
    sf.M = s.M := by
  by_cases hdim : v.length ≠ s.dimensions
  · have hbad : hnswAdd s id v level = Except.error "Vector dimension mismatch" := by
      simp only [hnswAdd, if_pos hdim]
    rw [hbad] at hok
    exact (Except.noConfusion hok)
  · obtain ⟨hwT, hrT, hdT, hkT, hidT, hcT⟩ := @hnswAdd_base_inv s id v level hw hr hd hfresh
    rcases hep : s.entryPoint with _ | ep
    · have hok' : ({ s with nodes := nodesSet s.nodes id ⟨id, v, emptyConnections level, level⟩, entryPoint := some id, maxLevel := (level : ℤ) } : HNSWState) = sf := by
        have := hok
        simp only [hnswAdd, if_neg hdim, hep, Except.ok.injEq] at this
        exact this
      rw [← hok']
      exact ⟨hwT, hrT, hdT, hkT, rfl⟩
    · simp only [hnswAdd, if_neg hdim, hep, Except.ok.injEq] at hok
      subst hok
      have hwT2 : WFState { s with
          nodes := nodesSet s.nodes id ⟨id, v, emptyConnections level, level⟩
          entryPoint := some ep } := hwT
      have hrT2 : Reciprocal { s with
          nodes := nodesSet s.nodes id ⟨id, v, emptyConnections level, level⟩
          entryPoint := some ep } := hrT
      have hdT2 : DegreeBound { s with
          nodes := nodesSet s.nodes id ⟨id, v, emptyConnections level, level⟩
          entryPoint := some ep } := hdT
      have hidT2 : (nodesGet ({ s with
          nodes := nodesSet s.nodes id ⟨id, v, emptyConnections level, level⟩
          entryPoint := some ep } : HNSWState).nodes id).isSome := hidT
      have hcT2 : ∀ l, stConnAt { s with
          nodes := nodesSet s.nodes id ⟨id, v, emptyConnections level, level⟩
          entryPoint := some ep } id l = [] := hcT
      have hkT2 : ({ s with
          nodes := nodesSet s.nodes id ⟨id, v, emptyConnections level, level⟩
          entryPoint := some ep } : HNSWState).nodes.map (fun p => p.1)
        = s.nodes.map (fun p => p.1) ++ [id] := hkT
      obtain ⟨hw2, hr2, hd2, hk2, hM2⟩ :=
        hnswLevels_inv id v ((min (level : ℤ) s.maxLevel + 1).toNat)
          { s with
            nodes := nodesSet s.nodes id ⟨id, v, emptyConnections level, level⟩
            entryPoint := some ep }
          (hnswDescend
            { s with
              nodes := nodesSet s.nodes id ⟨id, v, emptyConnections level, level⟩
              entryPoint := some ep }
            v level (s.maxLevel - (level : ℤ)).toNat ep)
          hwT2 hrT2 hdT2 hidT2 (fun l _ => hcT2 l)
      by_cases hc : s.maxLevel < (level : ℤ)
      · rw [if_pos hc]
        exact ⟨hw2, hr2, hd2, hk2.trans hkT2, hM2⟩
      · rw [if_neg hc]
        exact ⟨hw2, hr2, hd2, hk2.trans hkT2, hM2⟩

/-- One entry of `remove`'s neighbor-cleanup loop: delete `id` from every
listed neighbor's set at that entry's level. -/
def rfoldStep (id : ℕ) (st : HNSWState) (p : ℕ × List ℕ) : HNSWState :=
  p.2.foldl (fun st2 nbId => nodeUpdState st2 nbId (fun nd => connDelAt nd p.1 id)) st

theorem nodesGet_nodesDel (m : List (ℕ × HNSWNode)) (k u : ℕ) :
    nodesGet (nodesDel m k) u = if u = k then none else nodesGet m u := by
  induction m with
  | nil => by_cases h : u = k <;> simp [nodesDel, nodesGet, h]
  | cons p ps ih =>
    by_cases hpk : p.1 = k
    · have hfilt : nodesDel (p :: ps) k = nodesDel ps k := by
        simp [nodesDel, hpk]
      rw [hfilt, ih]
      by_cases huk : u = k
      · rw [if_pos huk, if_pos huk]
      · rw [if_neg huk, if_neg huk]
        have hpu : ¬p.1 = u := by rw [hpk]; exact fun hh => huk hh.symm
        rw [show nodesGet (p :: ps) u = nodesGet ps u from by simp [nodesGet, hpu]]
    · have hfilt : nodesDel (p :: ps) k = p :: nodesDel ps k := by
        simp [nodesDel, hpk]
      rw [hfilt]
      by_cases hpu : p.1 = u
      · have huk : ¬u = k := by
          intro hh
          exact hpk (hpu.trans hh)
        rw [if_neg huk]
        simp [nodesGet, hpu]
      · rw [show nodesGet (p :: nodesDel ps k) u = nodesGet (nodesDel ps k) u from by
            simp [nodesGet, hpu],
          ih,
          show nodesGet (p :: ps) u = nodesGet ps u from by simp [nodesGet, hpu]]

theorem connGet_of_mem_nodup {c : List (ℕ × List ℕ)}
    (hnd : (c.map (fun p => p.1)).Nodup) {e : ℕ × List ℕ} (he : e ∈ c) :
    connGet c e.1 = some e.2 := by
  induction c with
  | nil => simp at he
  | cons p ps ih =>
    rcases List.mem_cons.mp he with h | h
    · rw [h]
      simp [connGet]
    · have hne : ¬p.1 = e.1 := by
        intro hh
        have hm : e.1 ∈ ps.map (fun p => p.1) := List.mem_map.mpr ⟨e, h, rfl⟩
        rw [List.map_cons] at hnd
        exact (List.nodup_cons.mp hnd).1 (hh ▸ hm)
      rw [show connGet (p :: ps) e.1 = if p.1 = e.1 then some p.2 else connGet ps e.1 from rfl,
        if_neg hne]
      exact ih (by rw [List.map_cons] at hnd; exact (List.nodup_cons.mp hnd).2) h

theorem mem_stConnAt_updDel (s : HNSWState) (k lvl0 id u l x : ℕ) :
    x ∈ stConnAt (nodeUpdState s k (fun nd => connDelAt nd lvl0 id)) u l
      ↔ x ∈ stConnAt s u l ∧ ¬(u = k ∧ l = lvl0 ∧ x = id) := by
  rw [stConnAt_nodeUpdState_del]
  by_cases h : u = k ∧ l = lvl0
  · rw [if_pos h, mem_setDel]
    constructor
    · rintro ⟨hx, hne⟩
      exact ⟨hx, fun hc => hne hc.2.2⟩
    · rintro ⟨hx, hn⟩
      exact ⟨hx, fun hh => hn ⟨h.1, h.2, hh⟩⟩
  · rw [if_neg h]
    constructor
    · intro hx
      exact ⟨hx, fun hc => h ⟨hc.1, hc.2.1⟩⟩
    · exact fun hx => hx.1

theorem removeFoldInner_spec (id lvl0 : ℕ) (ids : List ℕ) :
    ∀ (s : HNSWState), WFState s →
      WFState (ids.foldl (fun st2 nbId =>
        nodeUpdState st2 nbId (fun nd => connDelAt nd lvl0 id)) s) ∧
      (ids.foldl (fun st2 nbId =>
        nodeUpdState st2 nbId (fun nd => connDelAt nd lvl0 id)) s).nodes.map
          (fun p => p.1) = s.nodes.map (fun p => p.1) ∧
      (ids.foldl (fun st2 nbId =>
        nodeUpdState st2 nbId (fun nd => connDelAt nd lvl0 id)) s).M = s.M ∧
      (∀ u l x, x ∈ stConnAt (ids.foldl (fun st2 nbId =>
          nodeUpdState st2 nbId (fun nd => connDelAt nd lvl0 id)) s) u l ↔
        x ∈ stConnAt s u l ∧ ¬(x = id ∧ l = lvl0 ∧ u ∈ ids)) := by
  induction ids with
  | nil =>
    intro s hw
    exact ⟨hw, rfl, rfl, fun u l x => by simp⟩
  | cons nb ids ih =>
    intro s hw
    rw [List.foldl_cons]
    obtain ⟨hw', hk', hM', hmem'⟩ :=
      ih (nodeUpdState s nb (fun nd => connDelAt nd lvl0 id))
        (wfState_nodeUpdState hw (fun _ h => nodeWF_connDelAt lvl0 id h))
    refine ⟨hw', ?_, hM', ?_⟩
    · rw [hk']
      show (nodeUpd s.nodes nb (fun nd => connDelAt nd lvl0 id)).map (fun p => p.1) = _
      rw [keys_nodeUpd]
    · intro u l x
      rw [hmem' u l x, mem_stConnAt_updDel]
      constructor
      · rintro ⟨⟨hx, h1⟩, h2⟩
        refine ⟨hx, ?_⟩
        rintro ⟨hxid, hllvl, hmem⟩
        rcases List.mem_cons.mp hmem with h3 | h3
        · exact h1 ⟨h3, hllvl, hxid⟩
        · exact h2 ⟨hxid, hllvl, h3⟩
      · rintro ⟨hx, h⟩
        refine ⟨⟨hx, ?_⟩, ?_⟩
        · rintro ⟨hu, hl, hxid⟩
          exact h ⟨hxid, hl, by rw [hu]; exact List.mem_cons_self nb ids⟩
        · rintro ⟨hxid, hl, hmem⟩
          exact h ⟨hxid, hl, List.mem_cons_of_mem nb hmem⟩

theorem removeFold_spec (id : ℕ) (entries : List (ℕ × List ℕ)) :
    ∀ (s : HNSWState), WFState s →
      WFState (entries.foldl (rfoldStep id) s) ∧
      (entries.foldl (rfoldStep id) s).nodes.map (fun p => p.1)
        = s.nodes.map (fun p => p.1) ∧
      (entries.foldl (rfoldStep id) s).M = s.M ∧
      (∀ u l x, x ∈ stConnAt (entries.foldl (rfoldStep id) s) u l ↔
        x ∈ stConnAt s u l ∧ ¬(x = id ∧ ∃ e ∈ entries, e.1 = l ∧ u ∈ e.2)) := by
  induction entries with
  | nil =>
    intro s hw
    exact ⟨hw, rfl, rfl, fun u l x => by simp⟩
  | cons e es ih =>
    intro s hw
    rw [List.foldl_cons]
    obtain ⟨hwI, hkI, hMI, hmemI⟩ := removeFoldInner_spec id e.1 e.2 s hw
    obtain ⟨hw', hk', hM', hmem'⟩ := ih (rfoldStep id s e) hwI
    refine ⟨hw', ?_, ?_, ?_⟩
    · rw [hk']
      exact hkI
    · rw [hM']
      exact hMI
    · intro u l x
      rw [hmem' u l x]
      have hmemI2 : x ∈ stConnAt (rfoldStep id s e) u l ↔
          x ∈ stConnAt s u l ∧ ¬(x = id ∧ l = e.1 ∧ u ∈ e.2) := hmemI u l x
      rw [hmemI2]
      constructor
      · rintro ⟨⟨hx, h1⟩, h2⟩
        refine ⟨hx, ?_⟩
        rintro ⟨hxid, e', he', h3, h4⟩
        rcases List.mem_cons.mp he' with h5 | h5
        · exact h1 ⟨hxid, by rw [h5] at h3; exact h3.symm, by rw [h5] at h4; exact h4⟩
        · exact h2 ⟨hxid, e', h5, h3, h4⟩
      · rintro ⟨hx, h⟩
        refine ⟨⟨hx, ?_⟩, ?_⟩
        · rintro ⟨hxid, hl, hu⟩
          exact h ⟨hxid, e, List.mem_cons_self e es, hl.symm, hu⟩
        · rintro ⟨hxid, e', he', h3, h4⟩
          exact h ⟨hxid, e', List.mem_cons_of_mem e he', h3, h4⟩

theorem removeResult_inv {s : HNSWState} {id : ℕ} {node : HNSWNode}
    (hw : WFState s) (hr : Reciprocal s) (hd : DegreeBound s)
    (ho : nodesGet s.nodes id = some node)
    (t : HNSWState)
    (htn : t.nodes
      = nodesDel (node.connections.foldl (rfoldStep id) s).nodes id)
    (htM : t.M = s.M) :
    WFState t ∧ Reciprocal t ∧ DegreeBound t ∧
    (∀ k ∈ t.nodes.map (fun p => p.1), k ∈ s.nodes.map (fun p => p.1)) ∧
    t.M = s.M := by
  obtain ⟨hwF, hkF, hMF, hmemF⟩ := removeFold_spec id node.connections s hw
  have hnodewf : NodeWF id node := by
    obtain ⟨p, hp, hpk, hpn⟩ := nodesGet_eq_some_mem ho
    have := hw.2 p hp
    rw [hpk, hpn] at this
    exact this
  have hlink : ∀ u l, (∃ e ∈ node.connections, e.1 = l ∧ u ∈ e.2)
      ↔ u ∈ stConnAt s id l := by
    intro u l
    have hsid : stConnAt s id l = connAt node l := by
      show (match nodesGet s.nodes id with
        | some nd => connAt nd l | none => ([] : List ℕ)) = _
      rw [ho]
    rw [hsid]
    constructor
    · rintro ⟨e, he, h1, h2⟩
      have hcg := connGet_of_mem_nodup hnodewf.2.1 he
      rw [h1] at hcg
      show u ∈ (connGet node.connections l).getD []
      rw [hcg]
      exact h2
    · intro h
      rcases hcg : connGet node.connections l with _ | w
      · exfalso
        have : u ∈ (connGet node.connections l).getD [] := h
        rw [hcg] at this
        simp at this
      · obtain ⟨p, hp, h1, h2⟩ := connGet_eq_some_mem hcg
        have hu : u ∈ p.2 := by
          rw [h2]
          have : u ∈ (connGet node.connections l).getD [] := h
          rw [hcg] at this
          exact this
        exact ⟨p, hp, h1, hu⟩
  have hstT : ∀ u l, stConnAt t u l
      = if u = id then []
        else stConnAt (node.connections.foldl (rfoldStep id) s) u l := by
    intro u l
    show (match nodesGet t.nodes u with
      | some nd => connAt nd l | none => ([] : List ℕ)) = _
    rw [htn, nodesGet_nodesDel]
    by_cases hu : u = id
    · rw [if_pos hu, if_pos hu]
    · rw [if_neg hu, if_neg hu]
      rfl
  have hliveT : ∀ v, v ≠ id →
      ((nodesGet t.nodes v).isSome ↔ (nodesGet s.nodes v).isSome) := by
    intro v hv
    rw [htn, nodesGet_nodesDel, if_neg hv]
    exact isSome_congr_keys v hkF
  refine ⟨?_, ?_, ?_, ?_, htM⟩
  · constructor
    · rw [htn]
      exact List.Nodup.sublist (List.Sublist.map _ (List.filter_sublist _)) hwF.1
    · intro p hp
      rw [htn] at hp
      exact hwF.2 p ((List.filter_sublist _).subset hp)
  · intro u l v hv
    rw [hstT u l] at hv
    by_cases hu : u = id
    · rw [if_pos hu] at hv
      simp at hv
    · rw [if_neg hu] at hv
      obtain ⟨hvs, hndel⟩ := (hmemF u l v).mp hv
      obtain ⟨hlv, hrec⟩ := hr u l v hvs
      have hvid : v ≠ id := by
        rintro rfl
        exact hndel ⟨rfl, (hlink u l).mpr hrec⟩
      refine ⟨(hliveT v hvid).mpr hlv, ?_⟩
      rw [hstT v l, if_neg hvid]
      exact (hmemF v l u).mpr ⟨hrec, fun hc => hu hc.1⟩
  · intro u l
    rw [htM, hstT u l]
    by_cases hu : u = id
    · rw [if_pos hu]
      simp
    · rw [if_neg hu]
      have hnd : (stConnAt (node.connections.foldl (rfoldStep id) s) u l).Nodup :=
        nodup_stConnAt hwF u l
      have hsub : ∀ x ∈ stConnAt (node.connections.foldl (rfoldStep id) s) u l,
          x ∈ stConnAt s u l := fun x hx => ((hmemF u l x).mp hx).1
      exact le_trans (length_le_of_nodup_subset hnd hsub) (hd u l)
  · intro k hk
    rw [htn] at hk
    have hk2 : k ∈ (node.connections.foldl (rfoldStep id) s).nodes.map
        (fun p => p.1) :=
      (List.Sublist.map _ (List.filter_sublist _)).subset hk
    rw [hkF] at hk2
    exact hk2

theorem hnswRemove_inv {s : HNSWState} (id : ℕ)
    (hw : WFState s) (hr : Reciprocal s) (hd : DegreeBound s) :
    WFState (hnswRemove s id).2 ∧ Reciprocal (hnswRemove s id).2 ∧
    DegreeBound (hnswRemove s id).2 ∧
    (∀ k ∈ (hnswRemove s id).2.nodes.map (fun p => p.1),
      k ∈ s.nodes.map (fun p => p.1)) ∧
    (hnswRemove s id).2.M = s.M := by
  rcases ho : nodesGet s.nodes id with _ | node
  · have hEq : (hnswRemove s id).2 = s := by
      simp only [hnswRemove, ho]
    rw [hEq]
    exact ⟨hw, hr, hd, fun k hk => hk, rfl⟩
  · have hMF' : (node.connections.foldl (rfoldStep id) s).M = s.M :=
      (removeFold_spec id node.connections s hw).2.2.1
    have hX : ((hnswRemove s id).2).nodes
        = nodesDel (node.connections.foldl (rfoldStep id) s).nodes id
      ∧ ((hnswRemove s id).2).M = s.M := by
      simp only [hnswRemove, ho]
      split
      · split
        · exact ⟨rfl, hMF'⟩
        · exact ⟨rfl, hMF'⟩
      · exact ⟨rfl, hMF'⟩
    obtain ⟨htn, htM⟩ := hX
    exact removeResult_inv hw hr hd ho _ htn htM

/-- The ids of the `add` operations in a batch, in order. -/
def addIds : List HOp → List ℕ
  | [] => []
  | HOp.add i _ _ :: ops => i :: addIds ops
  | HOp.remove _ :: ops => addIds ops

/-- Whether an operation's vector has the index dimension (`remove` has none). -/
def addDimOk (dims : ℕ) : HOp → Bool
  | .add _ v _ => v.length = dims
  | .remove _ => true

theorem runHNSW_inv : ∀ (ops : List HOp) (s : HNSWState),
    WFState s → Reciprocal s → DegreeBound s →
    (addIds ops).Nodup →
    (∀ i ∈ addIds ops, i ∉ s.nodes.map (fun p => p.1)) →
    WFState (runHNSW s ops) ∧ Reciprocal (runHNSW s ops) ∧
    DegreeBound (runHNSW s ops) ∧ (runHNSW s ops).M = s.M := by
  intro ops
  induction ops with
  | nil =>
    intro s hw hr hd _ _
    exact ⟨hw, hr, hd, rfl⟩
  | cons op ops ih =>
    intro s hw hr hd hnd hmem
    have hrun : runHNSW s (op :: ops) = runHNSW (applyHOp s op) ops := rfl
    rw [hrun]
    cases op with
    | add i v l =>
      have hcons : addIds (HOp.add i v l :: ops) = i :: addIds ops := rfl
      rw [hcons] at hnd
      have hndtail : (addIds ops).Nodup := (List.nodup_cons.mp hnd).2
      have hinot : i ∉ addIds ops := (List.nodup_cons.mp hnd).1
      have hfresh : nodesGet s.nodes i = none := by
        have h1 : i ∉ s.nodes.map (fun p => p.1) :=
          hmem i (by rw [hcons]; exact List.mem_cons_self i _)
        rcases hg : nodesGet s.nodes i with _ | x
        · rfl
        · exfalso
          apply h1
          rw [← nodesGet_isSome_iff, hg]
          rfl
      rcases hA : hnswAdd s i v l with e | sf
      · have happ : applyHOp s (HOp.add i v l) = s := by
          simp only [applyHOp, hA]
        rw [happ]
        apply ih s hw hr hd hndtail
        intro j hj
        exact hmem j (by rw [hcons]; exact List.mem_cons_of_mem i hj)
      · have happ : applyHOp s (HOp.add i v l) = sf := by
          simp only [applyHOp, hA]
        rw [happ]
        obtain ⟨hw1, hr1, hd1, hk1, hM1⟩ := hnswAdd_inv hw hr hd hfresh hA
        have hfresh' : ∀ j ∈ addIds ops, j ∉ sf.nodes.map (fun p => p.1) := by
          intro j hj hcon
          rw [hk1] at hcon
          rcases List.mem_append.mp hcon with h2 | h2
          · exact hmem j (by rw [hcons]; exact List.mem_cons_of_mem i hj) h2
          · rw [List.mem_singleton] at h2
            rw [h2] at hj
            exact hinot hj
        obtain ⟨hw', hr', hd', hM'⟩ := ih sf hw1 hr1 hd1 hndtail hfresh'
        exact ⟨hw', hr', hd', hM'.trans hM1⟩
    | remove i =>
      have happ : applyHOp s (HOp.remove i) = (hnswRemove s i).2 := rfl
      rw [happ]
      obtain ⟨hw1, hr1, hd1, hks, hM1⟩ := hnswRemove_inv i hw hr hd
      have hfresh' : ∀ j ∈ addIds ops,
          j ∉ (hnswRemove s i).2.nodes.map (fun p => p.1) :=
        fun j hj hcon => hmem j hj (hks j hcon)
      obtain ⟨hw', hr', hd', hM'⟩ := ih _ hw1 hr1 hd1 hnd hfresh'
      exact ⟨hw', hr', hd', hM'.trans hM1⟩

/-- C3: starting from an empty `HNSWIndex`, after any sequence of `add` calls
with pairwise-distinct ids and vectors of the index dimension, interleaved
with `remove` calls, every edge of the graph is reciprocal at its level (the
neighbor is a live node whose set at that level contains the other endpoint)
and every node's neighbor set at every level has at most `M` elements. -/
theorem hnsw_reciprocal_degree (dims M efC efS : ℕ) (ops : List HOp)
    (hnodup : (addIds ops).Nodup)
    (hdims : ∀ op ∈ ops, addDimOk dims op = true) :
    (∀ u l v, v ∈ stConnAt (runHNSW (mkHNSW dims M efC efS) ops) u l →
      (nodesGet (runHNSW (mkHNSW dims M efC efS) ops).nodes v).isSome ∧
      u ∈ stConnAt (runHNSW (mkHNSW dims M efC efS) ops) v l) ∧
    (∀ u l,
      (stConnAt (runHNSW (mkHNSW dims M efC efS) ops) u l).length ≤ M) := by
  have hw0 : WFState (mkHNSW dims M efC efS) := by
    constructor
    · simp [mkHNSW]
    · intro p hp
      simp [mkHNSW] at hp
  have hr0 : Reciprocal (mkHNSW dims M efC efS) := by
    intro u l v hv
    simp [stConnAt, nodesGet, mkHNSW] at hv
  have hd0 : DegreeBound (mkHNSW dims M efC efS) := by
    intro u l
    simp [stConnAt, nodesGet, mkHNSW]
  obtain ⟨hw, hr, hd, hM⟩ := runHNSW_inv ops (mkHNSW dims M efC efS)
    hw0 hr0 hd0 hnodup (by intro i _ hcon; simp [mkHNSW] at hcon)
  refine ⟨hr, ?_⟩
  intro u l
  have h1 := hd u l
  rw [hM] at h1
  exact h1

/-- C3 witness: a concrete batch of two in-dimension adds with distinct ids
and one remove, run from the empty index. -/
theorem hnsw_reciprocal_degree_witness :
    (∀ u l v, v ∈ stConnAt (runHNSW (mkHNSW 2 2 4 4)
        [HOp.add 0 [1, 0] 0, HOp.add 1 [0, 1] 1, HOp.remove 0]) u l →
      (nodesGet (runHNSW (mkHNSW 2 2 4 4)
        [HOp.add 0 [1, 0] 0, HOp.add 1 [0, 1] 1, HOp.remove 0]).nodes v).isSome ∧
      u ∈ stConnAt (runHNSW (mkHNSW 2 2 4 4)
        [HOp.add 0 [1, 0] 0, HOp.add 1 [0, 1] 1, HOp.remove 0]) v l) ∧
    (∀ u l, (stConnAt (runHNSW (mkHNSW 2 2 4 4)
        [HOp.add 0 [1, 0] 0, HOp.add 1 [0, 1] 1, HOp.remove 0]) u l).length ≤ 2) :=
  hnsw_reciprocal_degree 2 2 4 4
    [HOp.add 0 [1, 0] 0, HOp.add 1 [0, 1] 1, HOp.remove 0]
    (by decide) (by decide)

/-! The search pipeline (utils.ts / engine.ts `Simile.search`, linear branch;
the ANN branch feeds a differently-sourced raw list into the identical second
pass). The embedder is an external collaborator, so the query's vector is an
argument; an absent `filter` option is the constantly-true filter; `explain`
only adds a payload and is omitted. A JS score can be NaN (all-zero weights,
claim C5), which `Option ℚ`'s `none` models; the sort comparator
`b.score - a.score` returns NaN on such entries and ECMAScript's SortCompare
maps a NaN comparator result to `0`, which `resLE`'s `true` models. -/

structure RawEntry (μ : Type) where
  index : ℕ
  item : SearchItem μ
  semantic : ℚ
  fuzzy : ℚ
  keyword : ℚ

structure SearchResult (μ : Type) where
  id : String
  text : Str
  metadata : μ
  score : Option ℚ

/-- First pass of `search`: raw component scores of the items that pass the
filter, in item order. -/
def rawPass (st : EngineState μ) (query : Str) (qVector : Vec)
    (filter : μ → Bool) : List (RawEntry μ) :=
  (List.range st.items.length).filterMap (fun i =>
    match st.items.get? i with
    | none => none
    | some item =>
      if filter item.metadata then
        some ⟨i, item, dot qVector ((st.vectors.get? i).getD []),
          fuzzyScore query item.text, keywordScore query item.text⟩
      else none)

/-- Second pass of `search`, one raw entry: optionally normalize the three
components against the batch statistics, combine with `hybridScore`, and drop
the entry when `score < threshold`. A NaN score (`none`) fails that JS `<`
comparison, so the entry is kept. -/
def scoreEntry (norm : Bool) (w : HybridWeights) (threshold : ℚ)
    (stats : ScoreStats) (r : RawEntry μ) : Option (SearchResult μ) :=
  let semantic := if norm
    then normalizeScore r.semantic stats.semantic.mn stats.semantic.mx 0
    else r.semantic
  let fuzzy := if norm
    then normalizeScore r.fuzzy stats.fuzzy.mn stats.fuzzy.mx 0
    else r.fuzzy
  let keyword := if norm
    then normalizeScore r.keyword stats.keyword.mn stats.keyword.mx 0
    else r.keyword
  match hybridScore semantic fuzzy keyword w with
  | none => some ⟨r.item.id, r.item.text, r.item.metadata, none⟩
  | some q =>
    if q < threshold then none
    else some ⟨r.item.id, r.item.text, r.item.metadata, some q⟩

def secondPass (norm : Bool) (w : HybridWeights) (threshold : ℚ)
    (raw : List (RawEntry μ)) : List (SearchResult μ) :=
  raw.filterMap (scoreEntry norm w threshold
    (calculateScoreStats (raw.map (fun r => ⟨r.semantic, r.fuzzy, r.keyword⟩))))

/-- The sort comparator `(a, b) => b.score - a.score` as a relation: `a` may
precede `b` when the subtraction is `≤ 0` (descending) or NaN (SortCompare
treats a NaN comparator value as `0`). -/
def resLE (a b : SearchResult μ) : Prop :=
  a.score.isNone ∨ b.score.isNone ∨ b.score.getD 0 ≤ a.score.getD 0

instance {μ : Type} (a b : SearchResult μ) : Decidable (resLE a b) := by
  unfold resLE
  infer_instance

/-- Source `Simile.search`: below `minLength` return nothing; otherwise score
in two passes, sort by descending score (stably) and take the first `topK`. -/
def search (st : EngineState μ) (query : Str) (qVector : Vec) (topK : ℕ)
    (filter : μ → Bool) (threshold : ℚ) (minLength : ℕ) (norm : Bool)
    (w : HybridWeights) : List (SearchResult μ) :=
  if query.length < minLength then []
  else
    ((secondPass norm w threshold (rawPass st query qVector filter)).insertionSort
      resLE).take topK

theorem pairwise_orderedInsert_rel {α : Type} (P : α → Prop) (r : α → α → Prop)
    [DecidableRel r]
    (htot : ∀ a b, P a → P b → r a b ∨ r b a)
    (htrans : ∀ a b c, P a → P b → P c → r a b → r b c → r a c) :
    ∀ (l : List α) (a : α), P a → (∀ x ∈ l, P x) → l.Pairwise r →
      (l.orderedInsert r a).Pairwise r := by
  intro l
  induction l with
  | nil =>
    intro a _ _ _
    simp
  | cons b l ih =>
    intro a hPa hPl hs
    by_cases hab : r a b
    · rw [show (b :: l).orderedInsert r a = a :: b :: l from by
        simp [List.orderedInsert, hab]]
      rw [List.pairwise_cons]
      refine ⟨?_, hs⟩
      intro c hc
      rcases List.mem_cons.mp hc with h | h
      · rw [h]
        exact hab
      · have hbc : r b c := (List.pairwise_cons.mp hs).1 c h
        exact htrans a b c hPa (hPl b (List.mem_cons_self b l))
          (hPl c (List.mem_cons_of_mem b h)) hab hbc
    · rw [show (b :: l).orderedInsert r a = b :: l.orderedInsert r a from by
        simp [List.orderedInsert, hab]]
      have hba : r b a :=
        (htot a b hPa (hPl b (List.mem_cons_self b l))).resolve_left hab
      rw [List.pairwise_cons]
      constructor
      · intro c hc
        have hc' : c ∈ a :: l := (List.perm_orderedInsert r a l).mem_iff.mp hc
        rcases List.mem_cons.mp hc' with h | h
        · rw [h]
          exact hba
        · exact (List.pairwise_cons.mp hs).1 c h
      · exact ih a hPa (fun x hx => hPl x (List.mem_cons_of_mem b hx))
          (List.pairwise_cons.mp hs).2

theorem pairwise_insertionSort_rel {α : Type} (P : α → Prop) (r : α → α → Prop)
    [DecidableRel r]
    (htot : ∀ a b, P a → P b → r a b ∨ r b a)
    (htrans : ∀ a b c, P a → P b → P c → r a b → r b c → r a c)
    (l : List α) (hP : ∀ x ∈ l, P x) :
    (l.insertionSort r).Pairwise r := by
  induction l with
  | nil => simp
  | cons a l ih =>
    rw [show (a :: l).insertionSort r = (l.insertionSort r).orderedInsert r a from
      by simp [List.insertionSort]]
    refine pairwise_orderedInsert_rel P r htot htrans _ a
      (hP a (List.mem_cons_self a l)) ?_
      (ih (fun x hx => hP x (List.mem_cons_of_mem a hx)))
    intro x hx
    exact hP x (List.mem_cons_of_mem a ((List.perm_insertionSort r l).mem_iff.mp hx))

theorem hybridScore_some (s f k : ℚ) (w : HybridWeights)
    (hw : w.semantic.getD (7/10) + w.fuzzy.getD (15/100)
      + w.keyword.getD (15/100) ≠ 0) :
    ∃ q, hybridScore s f k w = some q := by
  simp only [hybridScore]
  rw [if_neg hw]
  exact ⟨_, rfl⟩

theorem scoreEntry_some {μ : Type} (norm : Bool) (w : HybridWeights)
    (threshold : ℚ) (stats : ScoreStats) (r : RawEntry μ)
    (res : SearchResult μ)
    (hw : w.semantic.getD (7/10) + w.fuzzy.getD (15/100)
      + w.keyword.getD (15/100) ≠ 0)
    (h : scoreEntry norm w threshold stats r = some res) :
    ∃ x, res.score = some x ∧ threshold ≤ x := by
  simp only [scoreEntry] at h
  obtain ⟨q, hq⟩ := hybridScore_some
    (if norm then normalizeScore r.semantic stats.semantic.mn stats.semantic.mx 0
      else r.semantic)
    (if norm then normalizeScore r.fuzzy stats.fuzzy.mn stats.fuzzy.mx 0
      else r.fuzzy)
    (if norm then normalizeScore r.keyword stats.keyword.mn stats.keyword.mx 0
      else r.keyword) w hw
  simp only [hq] at h
  by_cases hlt : q < threshold
  · rw [if_pos hlt] at h
    exact absurd h (by simp)
  · rw [if_neg hlt] at h
    refine ⟨q, ?_, le_of_not_lt hlt⟩
    rw [← Option.some.inj h]

/-- C1 (amended): provided the configured weights do not sum to zero (the
default and every sane configuration; claim C5 covers the all-zero anomaly,
where scores are NaN and the threshold filter passes them), `search` returns
`[]` whenever the query is shorter than `minLength`; otherwise the result is
sorted by descending final score, has at most `topK` entries, and every
returned score is at least `threshold`. -/
theorem search_spec {μ : Type} (st : EngineState μ) (query : Str)
    (qVector : Vec) (topK : ℕ) (filter : μ → Bool) (threshold : ℚ)
    (minLength : ℕ) (norm : Bool) (w : HybridWeights)
    (hw : w.semantic.getD (7/10) + w.fuzzy.getD (15/100)
      + w.keyword.getD (15/100) ≠ 0) :
    (query.length < minLength →
      search st query qVector topK filter threshold minLength norm w = []) ∧
    (search st query qVector topK filter threshold minLength norm w).length
      ≤ topK ∧
    (search st query qVector topK filter threshold minLength norm w).Pairwise
      (fun a b => ∃ x y, a.score = some x ∧ b.score = some y ∧ y ≤ x) ∧
    (∀ r ∈ search st query qVector topK filter threshold minLength norm w,
      ∃ x, r.score = some x ∧ threshold ≤ x) := by
  by_cases hlen : query.length < minLength
  · have hE : search st query qVector topK filter threshold minLength norm w
        = [] := by
      unfold search
      rw [if_pos hlen]
    rw [hE]
    exact ⟨fun _ => rfl, by simp, by simp, by simp⟩
  · have hE : search st query qVector topK filter threshold minLength norm w
        = ((secondPass norm w threshold
            (rawPass st query qVector filter)).insertionSort resLE).take topK := by
      unfold search
      rw [if_neg hlen]
    have hall : ∀ res ∈ (secondPass norm w threshold
        (rawPass st query qVector filter)).insertionSort resLE,
        ∃ x, res.score = some x ∧ threshold ≤ x := by
      intro res hres
      have h1 : res ∈ secondPass norm w threshold
          (rawPass st query qVector filter) :=
        (List.perm_insertionSort resLE _).mem_iff.mp hres
      obtain ⟨a, ha, hfa⟩ := List.mem_filterMap.mp h1
      exact scoreEntry_some norm w threshold _ a res hw hfa
    have hsorted : (((secondPass norm w threshold
        (rawPass st query qVector filter)).insertionSort resLE)).Pairwise
        resLE := by
      apply pairwise_insertionSort_rel (fun res => ∃ x, res.score = some x) resLE
      · intro a b hPa hPb
        obtain ⟨x, hx⟩ := hPa
        obtain ⟨y, hy⟩ := hPb
        rcases le_total y x with h | h
        · left
          unfold resLE
          rw [hx, hy]
          right
          right
          simpa using h
        · right
          unfold resLE
          rw [hx, hy]
          right
          right
          simpa using h
      · intro a b c hPa hPb hPc hab hbc
        obtain ⟨x, hx⟩ := hPa
        obtain ⟨y, hy⟩ := hPb
        obtain ⟨z, hz⟩ := hPc
        unfold resLE at hab hbc ⊢
        rw [hx, hy] at hab
        rw [hy, hz] at hbc
        rw [hx, hz]
        simp at hab hbc ⊢
        exact le_trans hbc hab
      · intro res hres
        obtain ⟨a, ha, hfa⟩ := List.mem_filterMap.mp hres
        obtain ⟨x, hx, _⟩ := scoreEntry_some norm w threshold _ a res hw hfa
        exact ⟨x, hx⟩
    rw [hE]
    refine ⟨fun h => absurd h hlen, ?_, ?_, ?_⟩
    · rw [List.length_take]
      exact Nat.min_le_left _ _
    · have htakeP : (((secondPass norm w threshold
          (rawPass st query qVector filter)).insertionSort resLE).take
          topK).Pairwise resLE :=
        List.Pairwise.sublist (List.take_sublist topK _) hsorted
      refine List.Pairwise.imp_of_mem ?_ htakeP
      intro a b hma hmb hr
      obtain ⟨x, hx, _⟩ := hall a ((List.take_sublist topK _).subset hma)
      obtain ⟨y, hy, _⟩ := hall b ((List.take_sublist topK _).subset hmb)
      refine ⟨x, y, hx, hy, ?_⟩
      unfold resLE at hr
      rw [hx, hy] at hr
      simpa using hr
    · intro r hr
      exact hall r ((List.take_sublist topK _).subset hr)

/-- C1 witness: a one-item engine searched with the default weights and
options. -/
theorem search_spec_witness :
    ((['q'] : Str).length < 1 →
      search (⟨[⟨"a", ['q'], Unit.unit⟩], [[1]], [("a", 0)]⟩ : EngineState Unit)
        ['q'] [1] 5 (fun _ => true) 0 1 true ⟨none, none, none⟩ = []) ∧
    (search (⟨[⟨"a", ['q'], Unit.unit⟩], [[1]], [("a", 0)]⟩ : EngineState Unit)
      ['q'] [1] 5 (fun _ => true) 0 1 true ⟨none, none, none⟩).length ≤ 5 ∧
    (search (⟨[⟨"a", ['q'], Unit.unit⟩], [[1]], [("a", 0)]⟩ : EngineState Unit)
      ['q'] [1] 5 (fun _ => true) 0 1 true ⟨none, none, none⟩).Pairwise
      (fun a b => ∃ x y, a.score = some x ∧ b.score = some y ∧ y ≤ x) ∧
    (∀ r ∈ search (⟨[⟨"a", ['q'], Unit.unit⟩], [[1]], [("a", 0)]⟩ : EngineState Unit)
        ['q'] [1] 5 (fun _ => true) 0 1 true ⟨none, none, none⟩,
      ∃ x, r.score = some x ∧ (0 : ℚ) ≤ x) :=
  search_spec (⟨[⟨"a", ['q'], Unit.unit⟩], [[1]], [("a", 0)]⟩ : EngineState Unit)
    ['q'] [1] 5 (fun _ => true) 0 1 true ⟨none, none, none⟩ (by norm_num)

/-- C1 counterexample: with the reachable all-zero weight configuration
(`setWeights({semantic: 0, fuzzy: 0, keyword: 0})`), every hybrid score is
NaN, `NaN < threshold` is false, so the NaN-scored entry is returned — and
its score is not `≥ threshold`, refuting the unconditional claim. -/
theorem search_nan_threshold_cex :
    search (⟨[⟨"a", ['a'], Unit.unit⟩], [[1]], [("a", 0)]⟩ : EngineState Unit)
        ['a'] [1] 5 (fun _ => true) 0 1 false ⟨some 0, some 0, some 0⟩
      = [⟨"a", ['a'], Unit.unit, none⟩] ∧
    ¬(∀ r ∈ search (⟨[⟨"a", ['a'], Unit.unit⟩], [[1]], [("a", 0)]⟩ : EngineState Unit)
        ['a'] [1] 5 (fun _ => true) 0 1 false ⟨some 0, some 0, some 0⟩,
      ∃ x, r.score = some x ∧ (0 : ℚ) ≤ x) := by
  have hz : ∀ s f k : ℚ, hybridScore s f k ⟨some 0, some 0, some 0⟩ = none := by
    intro s f k
    simp [hybridScore]
  have h1 : search (⟨[⟨"a", ['a'], Unit.unit⟩], [[1]], [("a", 0)]⟩ : EngineState Unit)
      ['a'] [1] 5 (fun _ => true) 0 1 false ⟨some 0, some 0, some 0⟩
      = [⟨"a", ['a'], Unit.unit, none⟩] := by
    unfold search
    rw [if_neg (by norm_num)]
    simp [rawPass, secondPass, scoreEntry, hz, List.range_succ,
      List.insertionSort, List.orderedInsert]
  refine ⟨h1, ?_⟩
  intro hcon
  obtain ⟨x, hx, _⟩ := hcon ⟨"a", ['a'], Unit.unit, none⟩
    (by rw [h1]; exact List.mem_singleton.mpr rfl)
  exact Option.noConfusion hx

end SimileSearch
